import Mathlib

/-!
Shallow embedding of the Price Normalization & Comparative Analysis Engine
of the practise_ai_udemy_langflow repository.

Sources embedded:
- `src/dev/mcp_servers/data_processing_mcp_server.py`
  (`_extract_price`, `_validate_product_data`, `_extract_domain`,
   `process_scraped_data`)
- `src/dev/mcp_servers/price_comparision_mcp_server.py`
  (`_calculate_statistics`, `_analyze_price_trends`,
   `_generate_recommendations`, `comprehensive_price_analysis`,
   `compare_specific_sites`)

Modelling conventions: Python `float` prices are modelled as exact
rationals (`Rat`); Python strings as Lean `String` / `List Char`;
Python `None` and absent dictionary keys as `Option`; functions that can
raise are given `Option` / sum result types.  Character classes of
Python's `re` module (`\d`, `\s`, `\w`) are modelled on their ASCII
portion, which covers every string the program's data paths produce.
-/

set_option allowUnsafeReducibility true
attribute [local semireducible] Rat.add Rat.mul Rat.sub Rat.inv Rat.div

deriving instance DecidableEq for Except

/-- Character-level model of Python's `\s` class (ASCII portion):
space, tab, newline, carriage return, vertical tab, form feed. -/
def isPySpace (c : Char) : Bool :=
  c = ' ' || c = '\t' || c = '\n' || c = '\r' || c.val = 11 || c.val = 12

/-- Model of `unicodedata.normalize('NFKD', s)` from the Python standard
library (the call on line 74 of `data_processing_mcp_server.py`).  NFKD
is the identity on ASCII text and on every currency symbol appearing in
the server's symbol table (none of `$ € £ ¥ ₹` has a compatibility
decomposition), so it is modelled as the identity map. -/
def nfkd (l : List Char) : List Char := l

/-- Substring test: `p` occurs (contiguously) somewhere in `s`.  Models
Python's `p in s` on strings. -/
def occursIn (p : List Char) : List Char → Bool
  | [] => decide (p = [])
  | c :: rest => p.isPrefixOf (c :: rest) || occursIn p rest

/-- The ordered currency-symbol table of `DataProcessingAnalyzer.__init__`
(lines 47-57).  Python dictionaries iterate in insertion order, so the
order below is the order `_extract_price` scans: note `'$'` comes before
`'C$'` and `'A$'`. -/
def currencySymbols : List (List Char × String) :=
  [("$".data, "USD"), ("€".data, "EUR"), ("£".data, "GBP"),
   ("¥".data, "JPY"), ("₹".data, "INR"), ("C$".data, "CAD"),
   ("A$".data, "AUD"), ("CHF".data, "CHF"), ("kr".data, "SEK")]

/-- Currency detection loop of `_extract_price` (lines 77-81): start from
the default `'USD'`; the first table entry whose symbol occurs anywhere in
the (normalized) text wins. -/
def detectCurrency (s : List Char) : String :=
  match currencySymbols.find? (fun e => occursIn e.1 s) with
  | some e => e.2
  | none => "USD"

/-- First cleaning pass of `_extract_price` (line 85):
`re.sub(r'[^\d.,\s]', ' ', price_str)` replaces every character that is
not a digit, period, comma or whitespace by a single space. -/
def charClean (s : List Char) : List Char :=
  s.map (fun c => if c.isDigit || c = '.' || c = ',' || isPySpace c then c else ' ')

/-- Model of Python's `\w` word-character class (ASCII portion), used for
the `\b` word boundaries of the filler-word substitution. -/
def isWordChar (c : Char) : Bool := c.isAlphanum || c = '_'

/-- The filler words removed by line 86, in the alternation order of the
regex `\b(price|cost|each|per|from|starting|at)\b`. -/
def fillerWords : List (List Char) :=
  ["price".data, "cost".data, "each".data, "per".data,
   "from".data, "starting".data, "at".data]

/-- Case-insensitive prefix test (the substitution on line 86 carries
`re.IGNORECASE`). -/
def ciPrefix : List Char → List Char → Bool
  | [], _ => true
  | _ :: _, [] => false
  | a :: p, b :: s => a.toLower = b.toLower && ciPrefix p s

/-- At the current position, try each filler word in alternation order: it
matches when it is a case-insensitive prefix and the character following
it (if any) is not a word character (the trailing `\b`).  Returns the
length of the matched word. -/
def fillerAt (s : List Char) : Option Nat :=
  (fillerWords.find? (fun w =>
    ciPrefix w s &&
      (match s.drop w.length with
       | [] => true
       | c :: _ => !isWordChar c))).map List.length

/-- Scanner for `re.sub(r'\b(price|...|at)\b', ' ', cleaned, re.IGNORECASE)`
(line 86).  `prevIsWord` tracks whether the previous character of the
original string is a word character (the leading `\b` fails when it is);
`skip` counts characters still to drop from a replaced match.  Each match
is replaced by one space and scanning resumes after it. -/
def removeFillersGo (prevIsWord : Bool) (skip : Nat) : List Char → List Char
  | [] => []
  | c :: rest =>
    match skip with
    | n + 1 => removeFillersGo true n rest
    | 0 =>
      if prevIsWord then c :: removeFillersGo (isWordChar c) 0 rest
      else
        match fillerAt (c :: rest) with
        | some len => ' ' :: removeFillersGo true (len - 1) rest
        | none => c :: removeFillersGo (isWordChar c) 0 rest

/-- Second cleaning pass of `_extract_price` (line 86). -/
def removeFillers (s : List Char) : List Char := removeFillersGo false 0 s

/-- Python `str.strip()` (line 87): drop leading and trailing whitespace. -/
def stripWs (s : List Char) : List Char :=
  ((s.dropWhile isPySpace).reverse.dropWhile isPySpace).reverse

/-- The cleaned string handed to the numeric patterns: lines 85-87 applied
after NFKD normalization. -/
def cleanedOf (s : String) : List Char :=
  stripWs (removeFillers (charClean (nfkd s.data)))

/-- Parser for the greedy regex fragment `(?:,\d{3})*`: consume as many
`,ddd` groups as possible, returning the consumed characters and the
remainder.  In `\d{1,3}(?:,\d{3})*\.\d{2}` giving back a group cannot help
the backtracker (after fewer groups the next character is the `,` that
opened the next group, never `.`), so the greedy parse is exact. -/
def parseGroups : List Char → List Char × List Char
  | c0 :: a :: b :: c :: rest =>
    if c0 = ',' && a.isDigit && b.isDigit && c.isDigit then
      let p := parseGroups rest
      (c0 :: a :: b :: c :: p.1, p.2)
    else ([], c0 :: a :: b :: c :: rest)
  | s => ([], s)

/-- One backtracking attempt of `\d{1,3}(?:,\d{3})*\.\d{2}` at the current
position with the leading quantifier fixed to exactly `k` digits. -/
def attemptA (k : Nat) (s : List Char) : Option (List Char) :=
  let ds := s.take k
  if ds.length = k && ds.all Char.isDigit then
    match (parseGroups (s.drop k)).2 with
    | d :: a :: b :: _ =>
      if d = '.' && a.isDigit && b.isDigit then
        some (ds ++ (parseGroups (s.drop k)).1 ++ [d, a, b])
      else none
    | _ => none
  else none

/-- Backtracking loop for the `{1,3}` quantifier: a greedy regex engine
tries 3, then 2, then 1 leading digits. -/
def tryKA : Nat → List Char → Option (List Char)
  | 0, _ => none
  | k + 1, s =>
    match attemptA (k + 1) s with
    | some t => some t
    | none => tryKA k s

/-- Match of pattern (a) `\d{1,3}(?:,\d{3})*\.\d{2}` (line 91) at one
position.  Attempts with more digits than are available fail inside
`attemptA`, so starting the loop at 3 is exact. -/
def matchA (s : List Char) : Option (List Char) := tryKA 3 s

/-- Match of pattern (b) `\d+\.\d{2}` (line 92) at one position.  `\d+` is
greedy and giving back digits cannot help (the character before the `.`
would then be a digit), so the maximal run followed by `.` and two digits
is exact. -/
def matchB (s : List Char) : Option (List Char) :=
  let run := s.takeWhile Char.isDigit
  if run.isEmpty then none
  else
    match s.dropWhile Char.isDigit with
    | d :: a :: b :: _ =>
      if d = '.' && a.isDigit && b.isDigit then some (run ++ [d, a, b]) else none
    | _ => none

/-- Match of pattern (c) `\d+,\d{2}` (line 93) at one position; same
greedy analysis as pattern (b) with `,` in place of `.`. -/
def matchC (s : List Char) : Option (List Char) :=
  let run := s.takeWhile Char.isDigit
  if run.isEmpty then none
  else
    match s.dropWhile Char.isDigit with
    | d :: a :: b :: _ =>
      if d = ',' && a.isDigit && b.isDigit then some (run ++ [d, a, b]) else none
    | _ => none

/-- Match of pattern (d) `\d{1,3}(?:,\d{3})+` (line 94) at one position.
When the leading digit run is longer than 3 every choice of the `{1,3}`
quantifier leaves a digit where `,` is required, so the position fails;
otherwise the quantifier takes the whole run and at least one `,ddd`
group must follow. -/
def matchD (s : List Char) : Option (List Char) :=
  let run := s.takeWhile Char.isDigit
  if run.isEmpty || decide (3 < run.length) then none
  else
    match (parseGroups (s.dropWhile Char.isDigit)).1 with
    | [] => none
    | g0 :: g => some (run ++ g0 :: g)

/-- Match of pattern (e) `\d+` (line 95) at one position. -/
def matchE (s : List Char) : Option (List Char) :=
  let run := s.takeWhile Char.isDigit
  if run.isEmpty then none else some run

/-- Leftmost match of a pattern: `re.findall` scans start positions left
to right, so `matches[0]` (line 103) is the match at the first position
where the pattern succeeds. -/
def firstMatch (m : List Char → Option (List Char)) : List Char → Option (List Char)
  | [] => none
  | c :: rest =>
    match m (c :: rest) with
    | some t => some t
    | none => firstMatch m rest

/-- The ordered pattern list `price_patterns` of lines 90-96. -/
def pricePatterns : List (List Char → Option (List Char)) :=
  [matchA, matchB, matchC, matchD, matchE]

/-- Split a token at its first `.`, if any: helper for the model of
Python's `float()`. -/
def breakDot : List Char → List Char × Option (List Char)
  | [] => ([], none)
  | c :: rest =>
    if c = '.' then ([], some rest)
    else
      let p := breakDot rest
      (c :: p.1, p.2)

/-- Numeric value of a digit string. -/
def digitsVal (s : List Char) : Nat :=
  s.foldl (fun a c => 10 * a + (c.toNat - 48)) 0

/-- Model of Python's `float()` on the token alphabet reachable here
(digits, commas, periods): an optional integer part, an optional single
`.`, an optional fractional part, at least one digit overall.  Any comma,
a second period, or an empty token raises `ValueError`, modelled as
`none`.  (Signs, exponents and whitespace never occur in the tokens the
patterns produce and are not modelled.) -/
def pyFloat (s : List Char) : Option ℚ :=
  match breakDot s with
  | (intp, none) =>
    if intp ≠ [] && intp.all Char.isDigit then some (digitsVal intp : ℚ) else none
  | (intp, some rest) =>
    match breakDot rest with
    | (fracp, none) =>
      if (intp ≠ [] || fracp ≠ []) && intp.all Char.isDigit && fracp.all Char.isDigit then
        some ((digitsVal intp : ℚ) + (digitsVal fracp : ℚ) / 10 ^ fracp.length)
      else none
    | (_, some _) => none

/-- Decimal-separator handling of lines 105-111: a token with a comma but
no period is read as European (comma becomes the decimal point),
otherwise commas are stripped as thousands separators; the result is
parsed by `float()`. -/
def interpToken (t : List Char) : Option ℚ :=
  if (',' ∈ t) && (('.' : Char) ∉ t) then
    pyFloat (t.map (fun c => if c = ',' then '.' else c))
  else
    pyFloat (t.filter (fun c => c ≠ ','))

/-- The pattern loop of lines 98-115: the first pattern with at least one
match contributes its first match; a `ValueError` from `float()` falls
through to the next pattern (`continue` on line 115). -/
def extractLoop : List (List Char → Option (List Char)) → List Char → Option ℚ
  | [], _ => none
  | m :: ms, cleaned =>
    match firstMatch m cleaned with
    | none => extractLoop ms cleaned
    | some tok =>
      match interpToken tok with
      | some q => some q
      | none => extractLoop ms cleaned

/-- Embedding of `DataProcessingAnalyzer._extract_price` (lines 60-117).
The argument is `Option String`: `none` models a Python `None` argument,
which like the empty string fails the `if not price_str` guard on
line 70.  When the pattern loop finds no parseable number the function
returns `(None, None)` even though a currency was detected (line 117). -/
def extractPrice (ps : Option String) : Option ℚ × Option String :=
  match ps with
  | none => (none, none)
  | some s =>
    if s = "" then (none, none)
    else
      let currency := detectCurrency (nfkd s.data)
      match extractLoop pricePatterns (cleanedOf s) with
      | some q => (some q, some currency)
      | none => (none, none)

/-- Specification-level reading of §4.1 step 5 of the design document:
"the first pattern that matches at least once is used, then the first
match found by that pattern is taken".  Used to state claim C1 against
`extractPrice`. -/
def firstPatternMatch : List (List Char → Option (List Char)) → List Char → Option (List Char)
  | [], _ => none
  | m :: ms, cleaned =>
    match firstMatch m cleaned with
    | some t => some t
    | none => firstPatternMatch ms cleaned

/-- Characters allowed in a URL scheme after the first letter
(`urllib.parse.scheme_chars`). -/
def isSchemeChar (c : Char) : Bool :=
  c.isAlpha || c.isDigit || c = '+' || c = '-' || c = '.'

/-- Scheme splitting of `urllib.parse.urlsplit`: when the text before the
first `:` is a nonempty valid scheme (leading letter, then scheme
characters), drop it together with the colon; otherwise leave the URL
unchanged. -/
def schemeSplit (s : List Char) : List Char :=
  let pre := s.takeWhile (fun c => c ≠ ':')
  if (':' ∈ s) &&
     (match pre with
      | [] => false
      | c :: _ => c.isAlpha && pre.all isSchemeChar) then
    s.drop (pre.length + 1)
  else s

/-- Netloc extraction of `urllib.parse.urlsplit`, as called by
`_extract_domain` (lines 158-164): after removing the scheme, a netloc is
present only when the remainder starts with `//`, and extends to the
first `/`, `?` or `#`.  A netloc containing `[` without `]` (or vice
versa) raises `ValueError("Invalid IPv6 URL")`, modelled as `.error ()`;
the `except` clause of `_extract_domain` catches it. -/
def netlocOf (s : List Char) : Except Unit (List Char) :=
  match schemeSplit s with
  | '/' :: '/' :: r =>
    let n := r.takeWhile (fun c => c ≠ '/' && c ≠ '?' && c ≠ '#')
    if (('[' ∈ n) && (']' ∉ n)) || ((']' ∈ n) && ('[' ∉ n)) then .error ()
    else .ok n
  | _ => .ok []

/-- Python `str.replace('www.', '')` (line 162): remove every
left-to-right, non-overlapping occurrence of `www.`. -/
def replaceWWW : List Char → List Char
  | [] => []
  | 'w' :: 'w' :: 'w' :: '.' :: rest => replaceWWW rest
  | c :: rest => c :: replaceWWW rest

/-- Lowercasing of the netloc (line 161).  Python's `str.lower` restricted
to ASCII, which `Char.toLower` implements. -/
def toLowerL (l : List Char) : List Char := l.map Char.toLower

/-- Embedding of `DataProcessingAnalyzer._extract_domain` (lines 148-164):
lowercase the netloc, remove every occurrence of `www.`, and answer
`"unknown"` when URL parsing raises. -/
def extractDomain (url : String) : String :=
  match netlocOf url.data with
  | .error _ => "unknown"
  | .ok n => String.mk (replaceWWW (toLowerL n))

/-- Model of a Python dictionary value as stored in a product-data dict:
a string, a number, or `None`. -/
inductive PyVal
  | vStr (s : String)
  | vNum (q : ℚ)
  | vNone
deriving DecidableEq

/-- Python truthiness of a `PyVal`: nonempty string, nonzero number. -/
def truthy : PyVal → Bool
  | .vStr s => s ≠ ""
  | .vNum q => q ≠ 0
  | .vNone => false

/-- The three dictionary slots `_validate_product_data` inspects; `none`
models an absent key. -/
structure ProductData where
  product_name : Option PyVal
  website : Option PyVal
  price : Option PyVal
deriving DecidableEq

/-- Python `str.startswith(prefix)`, expressed on the character lists so
that it evaluates by kernel reduction. -/
def pyStartswith (w : String) (pre : String) : Bool := pre.data.isPrefixOf w.data

/-- The Python test `field in data and data[field]` of lines 132-134. -/
def fieldPresent (f : Option PyVal) : Bool :=
  match f with
  | some v => truthy v
  | none => false

/-- Embedding of `DataProcessingAnalyzer._validate_product_data`
(lines 119-146).  Result `some b` models returning the Boolean `b`;
`none` models the `AttributeError` raised by `website.startswith` when
the `website` value is not a string (the function has no handler for
it). -/
def validateProductData (d : ProductData) : Option Bool :=
  if fieldPresent d.product_name && fieldPresent d.website && fieldPresent d.price then
    match d.price.getD (.vNum 0) with
    | .vNum p =>
      if p ≤ 0 || 1000000 < p then some false
      else
        match d.website.getD (.vStr "") with
        | .vStr w =>
          if pyStartswith w "http://" || pyStartswith w "https://" then some true
          else some false
        | _ => none
    | _ => some false
  else some false

/-- One element of `raw_data["results"]` as `process_scraped_data` reads
it.  `price` and `website` are read with `item.get(key, "")`, so an
absent key is folded into the empty string; `product_name`,
`product` and `extracted_title` distinguish absence (`none`). -/
structure RawItem where
  success : Bool
  price : String
  product_name : Option String
  product : Option String
  website : String
  extracted_title : Option String
deriving DecidableEq

/-- The standardized record built on lines 203-211. -/
structure ProcessedItem where
  product_name : String
  website : String
  domain : String
  price : ℚ
  currency : String
  original_price_string : String
  extracted_title : Option String
deriving DecidableEq

/-- The three rejection shapes appended to `failed_items`
(lines 195-199, 218-221, 230-233).  The `except` clause of lines 223-228
is unreachable in this embedding because every modelled step is total. -/
inductive FailedItem
  | scrapeFailed (item : RawItem)
  | noPrice (item : RawItem) (price_string : String)
  | failedValidation (item : ProcessedItem)
deriving DecidableEq

/-- View of a processed record as the dictionary
`_validate_product_data` receives on line 214. -/
def toProductData (p : ProcessedItem) : ProductData :=
  ⟨some (.vStr p.product_name), some (.vStr p.website), some (.vNum p.price)⟩

/-- The per-item body of the loop of lines 187-233: an item lands in
exactly one of the two output lists. -/
def processItem (item : RawItem) : ProcessedItem ⊕ FailedItem :=
  if item.success then
    match extractPrice (some item.price) with
    | (none, _) => .inr (.noPrice item item.price)
    | (some p, currencyOpt) =>
      let pi : ProcessedItem :=
        { product_name := item.product_name.getD (item.product.getD "Unknown Product")
          website := item.website
          domain := extractDomain item.website
          price := p
          currency := currencyOpt.getD "USD"
          original_price_string := item.price
          extracted_title := item.extracted_title }
      if validateProductData (toProductData pi) = some true then .inl pi
      else .inr (.failedValidation pi)
  else .inr (.scrapeFailed item)

/-- The `summary` dictionary of lines 239-243. -/
structure Summary where
  total_processed : Nat
  total_failed : Nat
  success_rate : ℚ
deriving DecidableEq

/-- The return value of `process_scraped_data` (lines 237-245). -/
structure ProcessOutput where
  data_list : List ProcessedItem
  summary : Summary
  failed_items : List FailedItem
deriving DecidableEq

/-- Embedding of the `process_scraped_data` tool (lines 171-245).  The
argument is `raw_data.get("results", [])`. -/
def processScrapedData (results : List RawItem) : ProcessOutput :=
  let lists := results.foldl
    (fun (acc : List ProcessedItem × List FailedItem) item =>
      match processItem item with
      | .inl p => (acc.1 ++ [p], acc.2)
      | .inr f => (acc.1, acc.2 ++ [f]))
    ([], [])
  { data_list := lists.1
    summary :=
      { total_processed := lists.1.length
        total_failed := lists.2.length
        success_rate :=
          if lists.1 = [] && lists.2 = [] then 0
          else (lists.1.length : ℚ) / ((lists.1.length : ℚ) + (lists.2.length : ℚ)) * 100 }
    failed_items := lists.2 }

/-- Exact arithmetic mean, modelling `statistics.mean`. -/
def meanQ (l : List ℚ) : ℚ := l.sum / l.length

/-- The dictionary built by `_calculate_statistics`
(`price_comparision_mcp_server.py` lines 49-56).  `statistics.stdev`
returns the square root of the sample variance, an irrational number in
general; the field `std_dev_sq` stores the exact sample variance (the
square of the code's `std_dev` value), which determines it.  The code's
`std_dev` is `0` exactly when `std_dev_sq` is `0`, and two runs agree on
`std_dev` exactly when they agree on `std_dev_sq`. -/
structure StatsDict where
  min : ℚ
  max : ℚ
  mean : ℚ
  median : ℚ
  range : ℚ
  std_dev_sq : ℚ
deriving DecidableEq

/-- Embedding of `PriceComparisonAnalyzer._calculate_statistics`
(lines 36-56): an empty price list answers the empty dictionary
(`none`); otherwise `min`, `max`, exact mean, `statistics.median`
(middle of the sorted list, average of the two middles for even length),
`range = max - min`, and the sample variance (divisor `n - 1`) when the
list has more than one element, else `0` (line 55). -/
def calculateStatistics (prices : List ℚ) : Option StatsDict :=
  match prices with
  | [] => none
  | p :: rest =>
    let n := (p :: rest).length
    let sorted := (p :: rest).insertionSort (· ≤ ·)
    some
      { min := rest.foldl min p
        max := rest.foldl max p
        mean := meanQ (p :: rest)
        median :=
          if n % 2 = 1 then sorted.getD (n / 2) 0
          else (sorted.getD (n / 2 - 1) 0 + sorted.getD (n / 2) 0) / 2
        range := rest.foldl max p - rest.foldl min p
        std_dev_sq :=
          if 1 < n then
            ((p :: rest).map (fun x => (x - meanQ (p :: rest)) ^ 2)).sum / ((n : ℚ) - 1)
          else 0 }

/-- One record of a `data_list` as the price-comparison tools read it:
a dictionary whose keys may be absent. -/
structure DataItem where
  product_name : Option String
  website : Option String
  domain : Option String
  price : Option ℚ
  currency : Option String
  original_price_string : Option String
deriving DecidableEq

/-- Comparison against the key `x.get("price", float('inf'))`
(lines 234 and 323): `none` plays the role of `+inf`, which is not less
than anything. -/
def keyLt : Option ℚ → Option ℚ → Bool
  | none, _ => false
  | some _, none => true
  | some a, some b => decide (a < b)

/-- Python's `min`/`max` over a nonempty sequence with a key function:
scan the tail, replacing the current best only when `better` holds
strictly, so ties keep the earliest element. -/
def pyBest {α : Type} (better : α → α → Bool) : α → List α → α
  | a, [] => a
  | a, x :: xs => if better x a then pyBest better x xs else pyBest better a xs

/-- Insertion-ordered dictionary update for
`domain_prices[domain].append(price)` with the `if domain not in` guard
(lines 73-78): an existing key keeps its position and extends its list, a
new key is appended at the end. -/
def dictAppendPrice (d : List (String × List ℚ)) (k : String) (v : ℚ) :
    List (String × List ℚ) :=
  match d with
  | [] => [(k, [v])]
  | (k', vs) :: rest =>
    if k' = k then (k', vs ++ [v]) :: rest else (k', vs) :: dictAppendPrice rest k v

/-- Insertion-ordered dictionary assignment `d[k] = v`: an existing key
keeps its position and is overwritten, a new key is appended. -/
def dictInsert {α : Type} (d : List (String × α)) (k : String) (v : α) :
    List (String × α) :=
  match d with
  | [] => [(k, v)]
  | (k', v') :: rest =>
    if k' = k then (k, v) :: rest else (k', v') :: dictInsert rest k v

/-- Dictionary lookup on an insertion-ordered association list. -/
def lookupA {α : Type} : List (String × α) → String → Option α
  | [], _ => none
  | (k, v) :: rest, key => if k = key then some v else lookupA rest key

/-- The dictionary built by `_analyze_price_trends` (lines 58-91);
`none` models the empty dictionary returned for empty input. -/
structure TrendReport where
  domain_price_averages : List (String × ℚ)
  most_expensive_site : Option String
  cheapest_site : Option String
  price_variation_by_site : List (String × List ℚ)
deriving DecidableEq

/-- Embedding of `PriceComparisonAnalyzer._analyze_price_trends`
(lines 58-91): group prices by `item.get('domain', 'unknown')` in
insertion order, average per domain, and pick the domains of maximal and
minimal average with Python's first-wins tie rule. -/
def analyzePriceTrends (price_data : List DataItem) : Option TrendReport :=
  match price_data with
  | [] => none
  | _ :: _ =>
    let domain_prices := price_data.foldl
      (fun d item => dictAppendPrice d (item.domain.getD "unknown") (item.price.getD 0)) []
    let domain_averages := domain_prices.map (fun e => (e.1, meanQ e.2))
    some
      { domain_price_averages := domain_averages
        most_expensive_site :=
          match domain_averages with
          | [] => none
          | a :: rest => some (pyBest (fun x y : String × ℚ => decide (y.2 < x.2)) a rest).1
        cheapest_site :=
          match domain_averages with
          | [] => none
          | a :: rest => some (pyBest (fun x y : String × ℚ => decide (x.2 < y.2)) a rest).1
        price_variation_by_site := domain_prices }

/-- The `best_deal` dictionary assembled on lines 243-248. -/
structure BestDealInfo where
  price : Option ℚ
  domain : Option String
  website : Option String
  currency : String
deriving DecidableEq

/-- The recommendation strings of `_generate_recommendations`
(lines 93-136), modelled structurally: each constructor records which
rule fired and the values interpolated into the message. -/
inductive Recommendation
  | bestDeal (domain : String) (price : ℚ)
  | savings (amount : ℚ)
  | highVariation
  | cheaperSite (domain : String)
deriving DecidableEq

/-- Read a field of the statistics dictionary with `stats.get(key, 0)`. -/
def statGet (s : Option StatsDict) (f : StatsDict → ℚ) : ℚ :=
  (s.map f).getD 0

/-- Embedding of `PriceComparisonAnalyzer._generate_recommendations`
(lines 93-136).  The high-variation test `std_dev / mean_price > 0.2`
(guarded by `mean_price > 0`, line 127) is expressed on the stored
variance: for `mean > 0`, `sqrt v / mean > 1/5` holds exactly when
`25 * v > mean ^ 2`, since both sides of the former are nonnegative. -/
def generateRecommendations (price_data : List DataItem) (stats : Option StatsDict)
    (best_deal : Option BestDealInfo) (trends : Option TrendReport) :
    List Recommendation :=
  if price_data = [] then []
  else
    (match best_deal with
     | some bd => [.bestDeal (bd.domain.getD "Unknown site") (bd.price.getD 0)]
     | none => []) ++
    (if 0 < statGet stats (·.range) then [.savings (statGet stats (·.range))] else []) ++
    (if (if 0 < statGet stats (·.mean) then
           decide (25 * statGet stats (·.std_dev_sq) > statGet stats (·.mean) ^ 2)
         else false) then [.highVariation] else []) ++
    (match trends with
     | some tr =>
       match tr.cheapest_site with
       | some d => if d ≠ "" then [.cheaperSite d] else []
       | none => []
     | none => [])

/-- Model of Python's `round(x, k)` on exact values: round to the nearest
multiple of `10 ^ (-k)`, ties to even (banker's rounding). -/
def pyRoundTo (k : Nat) (x : ℚ) : ℚ :=
  let y := x * 10 ^ k
  let n := ⌊y⌋
  let r : ℤ :=
    if 1 / 2 < y - n then n + 1
    else if y - n < 1 / 2 then n
    else if n % 2 = 0 then n else n + 1
  (r : ℚ) / 10 ^ k

/-- Model of `round(sqrt v, 2)` for a nonnegative rational `v`, used for
the reported `standard_deviation` (line 280 rounds the value
`statistics.stdev(...)`, whose square is stored in `std_dev_sq`):
`Nat.sqrt (v.num * 10000 * v.den) / v.den` is the floor of `100 * sqrt v`,
and the tie test compares `40000 * v` with `(2 * floor + 1) ^ 2`. -/
def round2Sqrt (v : ℚ) : ℚ :=
  let f := Nat.sqrt (v.num.toNat * 10000 * v.den) / v.den
  let halfSq := (((2 * f + 1 : ℕ) : ℚ)) ^ 2
  let n : ℕ :=
    if halfSq < 40000 * v then f + 1
    else if 40000 * v < halfSq then f
    else if f % 2 = 0 then f else f + 1
  (n : ℚ) / 100

/-- The `price_statistics` sub-dictionary of lines 274-281. -/
structure PriceStatisticsReport where
  lowest_price : ℚ
  highest_price : ℚ
  average_price : ℚ
  median_price : ℚ
  price_range : ℚ
  standard_deviation : ℚ
deriving DecidableEq

/-- One element of the `all_prices` list of lines 261-267. -/
structure PriceEntry where
  domain : Option String
  website : Option String
  price : Option ℚ
  currency : String
  original_price_string : Option String
deriving DecidableEq

/-- The `final_analysis` dictionary of lines 269-288. -/
structure AnalysisOutput where
  product_name : String
  analysis_timestamp : String
  total_sites_analyzed : Nat
  valid_prices_found : Nat
  price_statistics : PriceStatisticsReport
  best_deal : BestDealInfo
  potential_savings : ℚ
  recommendations : List Recommendation
  site_analysis : Option TrendReport
  all_prices : List PriceEntry
  data_available : Bool
deriving DecidableEq

/-- Result of `comprehensive_price_analysis`: either one of the two
early-return error dictionaries (lines 216-219 and 225-228) or the full
analysis. -/
inductive AnalysisResult
  | err (msg : String)
  | ok (a : AnalysisOutput)
deriving DecidableEq

/-- Embedding of the `comprehensive_price_analysis` tool (lines 201-291).
The wall-clock reading `datetime.now().isoformat()` of line 271 is made
an explicit argument `now`; everything else is a function of
`data_list`.  The `worst_deal` dictionary of lines 249-253 is computed by
the code but appears in no output field, so it is not modelled. -/
def comprehensivePriceAnalysis (now : String) (data_list : List DataItem) :
    AnalysisResult :=
  match data_list with
  | [] => .err "No valid data found for analysis"
  | h :: t =>
    let dl := h :: t
    let prices := (dl.map (fun i => i.price.getD 0)).filter (fun p => 0 < p)
    if prices = [] then .err "No valid prices found in data"
    else
      let stats := calculateStatistics prices
      let best := pyBest (fun x y : DataItem => keyLt x.price y.price) h t
      let bdInfo : BestDealInfo := ⟨best.price, best.domain, best.website, best.currency.getD "USD"⟩
      let trends := analyzePriceTrends dl
      .ok
        { product_name := h.product_name.getD "Unknown Product"
          analysis_timestamp := now
          total_sites_analyzed := dl.length
          valid_prices_found := prices.length
          price_statistics :=
            { lowest_price := statGet stats (·.min)
              highest_price := statGet stats (·.max)
              average_price := pyRoundTo 2 (statGet stats (·.mean))
              median_price := pyRoundTo 2 (statGet stats (·.median))
              price_range := pyRoundTo 2 (statGet stats (·.range))
              standard_deviation := round2Sqrt (statGet stats (·.std_dev_sq)) }
          best_deal := bdInfo
          potential_savings := pyRoundTo 2 (statGet stats (·.range))
          recommendations := generateRecommendations dl stats (some bdInfo) trends
          site_analysis := trends
          all_prices := dl.map (fun i =>
            ⟨i.domain, i.website, i.price, i.currency.getD "USD", i.original_price_string⟩)
          data_available := true }

/-- Replace the `analysis_timestamp` field by a constant; used to state
that the timestamp is the only time-dependent part of the output. -/
def stripTimestamp : AnalysisResult → AnalysisResult
  | .err m => .err m
  | .ok a => .ok { a with analysis_timestamp := "" }

/-- The records of `data_list` whose domain contains the requested domain
as a case-insensitive substring (lines 317-320). -/
def matchingItems (dl : List DataItem) (dom : String) : List DataItem :=
  dl.filter (fun item =>
    occursIn (toLowerL dom.data) (toLowerL (item.domain.getD "").data))

/-- One value of the `site_prices` dictionary (lines 341-346). -/
structure SitePriceEntry where
  price : Option ℚ
  currency : String
  website : Option String
  original_price_string : Option String
deriving DecidableEq

/-- The `site_prices` value built for one matched domain
(lines 341-346). -/
def mkSitePrice (r : DataItem) : SitePriceEntry :=
  ⟨r.price, r.currency.getD "USD", r.website, r.original_price_string⟩

/-- One value of the `price_differences` dictionary (lines 363-366). -/
structure DeltaEntry where
  difference : ℚ
  percentage_more : ℚ
deriving DecidableEq

/-- The `best_among_requested` dictionary (lines 354-358). -/
structure BestAmong where
  domain : String
  price : ℚ
  currency : String
deriving DecidableEq

/-- The comparison dictionary assembled on lines 329-366. -/
structure ComparisonOutput where
  requested_comparison : List String
  site_prices : List (String × SitePriceEntry)
  best_among_requested : Option BestAmong
  price_differences : List (String × DeltaEntry)
  sites_found : Nat
  sites_missing : List String
deriving DecidableEq

/-- Result of `compare_specific_sites`: the early-return error dictionary
of lines 309-312, or the comparison output. -/
inductive ComparisonResult
  | err (msg : String) (requested : List String)
  | ok (c : ComparisonOutput)
deriving DecidableEq

/-- The per-domain selection of lines 316-326: all matching records, and
when there are several, the one with minimum `get("price", float('inf'))`
(first wins on ties). -/
def bestMatch (dl : List DataItem) (dom : String) : Option DataItem :=
  match matchingItems dl dom with
  | [] => none
  | x :: xs => some (pyBest (fun a b : DataItem => keyLt a.price b.price) x xs)

/-- The accumulator of the loop over `site_data.items()` (lines 338-350):
`site_prices`, `valid_sites`, `sites_found`, `sites_missing`. -/
def siteStep (acc : List (String × SitePriceEntry) × List (String × ℚ) × Nat × List String)
    (e : String × Option DataItem) :
    List (String × SitePriceEntry) × List (String × ℚ) × Nat × List String :=
  match e.2 with
  | some data =>
    (dictInsert acc.1 e.1 (mkSitePrice data),
     dictInsert acc.2.1 e.1 (data.price.getD 0),
     acc.2.2.1 + 1,
     acc.2.2.2)
  | none => (acc.1, acc.2.1, acc.2.2.1, acc.2.2.2 ++ [e.1])

/-- Embedding of the `compare_specific_sites` tool (lines 293-369). -/
def compareSpecificSites (data_list : List DataItem) (site_domains : List String) :
    ComparisonResult :=
  match data_list with
  | [] => .err "No data available for comparison" site_domains
  | h :: t =>
    let dl := h :: t
    let site_data := site_domains.foldl
      (fun sd dom => dictInsert sd dom (bestMatch dl dom)) []
    let folded := site_data.foldl siteStep ([], [], 0, [])
    let site_prices := folded.1
    let valid_sites := folded.2.1
    let found := folded.2.2.1
    let missing := folded.2.2.2
    match valid_sites with
    | [] =>
      .ok { requested_comparison := site_domains
            site_prices := site_prices
            best_among_requested := none
            price_differences := []
            sites_found := found
            sites_missing := missing }
    | v :: vs =>
      let bestEntry := pyBest (fun a b : String × ℚ => decide (a.2 < b.2)) v vs
      let cheapest := bestEntry.2
      let bestCur :=
        match lookupA site_data bestEntry.1 with
        | some (some r) => r.currency.getD "USD"
        | _ => "USD"
      let diffs := valid_sites.foldl
        (fun acc (e : String × ℚ) =>
          dictInsert acc e.1
            ⟨pyRoundTo 2 (e.2 - cheapest),
             if 0 < cheapest then pyRoundTo 1 ((e.2 - cheapest) / cheapest * 100) else 0⟩)
        []
      .ok { requested_comparison := site_domains
            site_prices := site_prices
            best_among_requested := some ⟨bestEntry.1, cheapest, bestCur⟩
            price_differences := diffs
            sites_found := found
            sites_missing := missing }

/-- The `price_differences` field of a comparison result, empty on the
error branch; accessor used to state claim C8. -/
def deltasOf : ComparisonResult → List (String × DeltaEntry)
  | .err _ _ => []
  | .ok c => c.price_differences

/-- A one-record batch used to exhibit the timestamp dependence of
`comprehensive_price_analysis`. -/
def timestampProbe : DataItem :=
  ⟨some "P", some "https://a.com", some "a.com", some 10, some "USD", some "$10"⟩

/-- The raw listing used to witness claim C2. -/
def sampleRawItem : RawItem :=
  ⟨true, "$999.99", some "iPhone 15 Pro", none, "https://www.amazon.com/dp/B123456", none⟩

/-- The standardized record `process_scraped_data` derives from
`sampleRawItem`. -/
def sampleProcessedItem : ProcessedItem :=
  ⟨"iPhone 15 Pro", "https://www.amazon.com/dp/B123456", "amazon.com",
    mkRat 99999 100, "USD", "$999.99", none⟩

/-- First probe record for claim C8: domain `aaa.com`, price 3. -/
def probeA : DataItem :=
  ⟨some "P", some "https://aaa.com/p", some "aaa.com", some 3, some "USD", some "$3"⟩

/-- Second probe record for claim C8: domain `bbb.com`, price 4. -/
def probeB : DataItem :=
  ⟨some "P", some "https://bbb.com/p", some "bbb.com", some 4, some "USD", some "$4"⟩

/-! Theorems.  Each claim of the specification audit is settled by one
theorem below; shared helper lemmas come first. -/

/-- Claim C9: an empty price string and an absent (`None`) price string
both make `_extract_price` return `(None, None)` rather than fail. -/
theorem extractPrice_empty_and_absent :
    extractPrice (some "") = (none, none) ∧ extractPrice none = (none, none) := by
  exact ⟨rfl, rfl⟩

/-- A prefix of a list occurs in it after any further prefix is removed:
auxiliary step for `occursIn_append_right`. -/
theorem occursIn_of_isPrefixOf (q : List Char) :
    ∀ (p s : List Char), (p ++ q).isPrefixOf s = true → occursIn q s = true := by
  intro p
  induction p with
  | nil =>
    intro s h
    cases s with
    | nil =>
      cases q with
      | nil => rfl
      | cons a r => simp [List.isPrefixOf] at h
    | cons c rest =>
      simp only [occursIn, Bool.or_eq_true]
      exact Or.inl h
  | cons a p ih =>
    intro s h
    cases s with
    | nil => simp [List.isPrefixOf] at h
    | cons c rest =>
      simp only [List.cons_append, List.isPrefixOf, Bool.and_eq_true] at h
      simp only [occursIn, Bool.or_eq_true]
      exact Or.inr (ih rest h.2)

/-- If a concatenation occurs as a substring, so does its right part. -/
theorem occursIn_append_right (p q : List Char) :
    ∀ s, occursIn (p ++ q) s = true → occursIn q s = true := by
  intro s
  induction s with
  | nil =>
    intro h
    simp only [occursIn, decide_eq_true_eq, List.append_eq_nil] at h
    simp [occursIn, h.1, h.2]
  | cons c rest ih =>
    intro h
    simp only [occursIn, Bool.or_eq_true] at h
    rcases h with h | h
    · exact occursIn_of_isPrefixOf q p (c :: rest) h
    · simp only [occursIn, Bool.or_eq_true]
      exact Or.inr (ih h)

/-- Claim C3, counterexample: the symbol table is scanned in insertion
order and `'$'` precedes `'C$'`, so a text containing `C$` is detected as
USD, not CAD. -/
theorem extractPrice_Cdollar_counterexample :
    extractPrice (some "C$100") = (some 100, some "USD") ∧
      detectCurrency (nfkd "C$100".data) = "USD" ∧ ("USD" : String) ≠ "CAD" := by
  refine ⟨by decide, by decide, by decide⟩

/-- Claim C3, amended: detection scans the table in insertion order
(`$`, `€`, `£`, `¥`, `₹`, `C$`, `A$`, `CHF`, `kr`) and the first entry
whose symbol occurs anywhere wins, defaulting to USD when none occurs.
Because `'$'` is scanned first and occurs in every text containing `C$`
or `A$`, such texts are detected as USD, never CAD or AUD; an entry later
in the table (here `€`) wins only when no earlier symbol occurs. -/
theorem detectCurrency_order_amended :
    (∀ s : List Char, occursIn "C$".data s = true → detectCurrency s = "USD") ∧
    (∀ s : List Char, occursIn "A$".data s = true → detectCurrency s = "USD") ∧
    (∀ s : List Char, (∀ e ∈ currencySymbols, occursIn e.1 s = false) →
      detectCurrency s = "USD") ∧
    (∀ s : List Char, occursIn "$".data s = false → occursIn "€".data s = true →
      detectCurrency s = "EUR") := by
  have hdollar : ∀ s : List Char, occursIn "$".data s = true → detectCurrency s = "USD" := by
    intro s h
    unfold detectCurrency currencySymbols
    rw [List.find?_cons_of_pos _ (by simpa using h)]
  refine ⟨?_, ?_, ?_, ?_⟩
  · intro s h
    exact hdollar s (occursIn_append_right ['C'] "$".data s h)
  · intro s h
    exact hdollar s (occursIn_append_right ['A'] "$".data s h)
  · intro s h
    unfold detectCurrency
    rw [List.find?_eq_none.mpr (by intro e he; simpa using h e he)]
  · intro s h1 h2
    unfold detectCurrency currencySymbols
    rw [List.find?_cons_of_neg _ (by simpa using h1),
      List.find?_cons_of_pos _ (by simpa using h2)]

/-- Witness for the amended claim C3 at the concrete text `C$100`. -/
theorem detectCurrency_order_amended_w :
    detectCurrency "C$100".data = "USD" :=
  detectCurrency_order_amended.1 "C$100".data (by decide)

/-- A list in which `www.` does not occur is left unchanged by
`replaceWWW`. -/
theorem replaceWWW_of_not_occurs :
    ∀ l : List Char, occursIn "www.".data l = false → replaceWWW l = l := by
  intro l
  induction l using replaceWWW.induct with
  | case1 => intro _; rfl
  | case2 rest ih =>
    intro h
    exfalso
    simp only [occursIn, Bool.or_eq_true, List.isPrefixOf] at h
    simp at h
  | case3 c rest hne ih =>
    intro h
    simp only [occursIn, Bool.or_eq_false_iff] at h
    have hrec := ih h.2
    rw [replaceWWW.eq_def]
    split
    · next heq => exact absurd heq (by simp)
    · next rest1 heq =>
      injection heq with h1 h2
      exact (hne rest1 h1 h2).elim
    · next c2 rest2 hne2 heq =>
      injection heq with h1 h2
      subst h1
      subst h2
      rw [hrec]

/-- Claim C5, counterexample: `_extract_domain` uses
`netloc.replace('www.', '')`, which removes every occurrence of `www.`,
not only a leading one.  For `http://shop.www.example.com` the authority
is `shop.www.example.com` (no leading `www.`), yet the derived domain is
`shop.example.com`. -/
theorem extractDomain_replace_all_counterexample :
    netlocOf "http://shop.www.example.com".data = .ok "shop.www.example.com".data ∧
      extractDomain "http://shop.www.example.com" = "shop.example.com" ∧
      extractDomain "http://shop.www.example.com" ≠ "shop.www.example.com" := by
  refine ⟨by decide, by decide, by decide⟩

/-- Claim C5, amended: the derived domain is the lowercased authority
with every left-to-right occurrence of `www.` removed (which coincides
with stripping a leading `www.` whenever `www.` occurs nowhere else), and
is the literal `"unknown"` whenever URL parsing raises. -/
theorem extractDomain_amended :
    extractDomain "http://[x" = "unknown" ∧
    (∀ (url : String), netlocOf url.data = .error () → extractDomain url = "unknown") ∧
    (∀ (url : String) (n : List Char), netlocOf url.data = .ok n →
      extractDomain url = String.mk (replaceWWW (toLowerL n))) ∧
    (∀ (url : String) (n r : List Char), netlocOf url.data = .ok n →
      toLowerL n = 'w' :: 'w' :: 'w' :: '.' :: r →
      occursIn "www.".data r = false →
      extractDomain url = String.mk r) := by
  refine ⟨by decide, ?_, ?_, ?_⟩
  · intro url h
    unfold extractDomain
    rw [h]
  · intro url n h
    unfold extractDomain
    rw [h]
  · intro url n r h hl hocc
    unfold extractDomain
    rw [h]
    show String.mk (replaceWWW (toLowerL n)) = String.mk r
    rw [hl]
    show String.mk (replaceWWW r) = String.mk r
    rw [replaceWWW_of_not_occurs r hocc]

/-- Witness for the amended claim C5: a URL whose lowercased authority
carries a single leading `www.`. -/
theorem extractDomain_amended_w :
    extractDomain "https://www.amazon.com/dp/B123456" = String.mk "amazon.com".data :=
  extractDomain_amended.2.2.2 "https://www.amazon.com/dp/B123456"
    "www.amazon.com".data "amazon.com".data (by decide) (by decide) (by decide)

/-- A string with prefix `http://` or `https://` is nonempty. -/
theorem startsWith_http_ne_empty (w : String)
    (h : pyStartswith w "http://" = true ∨ pyStartswith w "https://" = true) :
    w ≠ "" := by
  intro he
  subst he
  rcases h with h | h <;> exact absurd h (by decide)

/-- Claim C6: `_validate_product_data` accepts a record exactly when the
three fields are present and truthy, the price is a number with
`0 < price ≤ 1,000,000`, and the website string starts with `http://` or
`https://`; in particular a price of exactly 1,000,000 is accepted and
1,000,000.01 is rejected. -/
theorem validateProductData_iff :
    (∀ d : ProductData,
      validateProductData d = some true ↔
        ((∃ v, d.product_name = some v ∧ truthy v = true) ∧
         (∃ w : String, d.website = some (.vStr w) ∧
            (pyStartswith w "http://" = true ∨ pyStartswith w "https://" = true)) ∧
         (∃ p : ℚ, d.price = some (.vNum p) ∧ 0 < p ∧ p ≤ 1000000))) ∧
    validateProductData
      ⟨some (.vStr "Item"), some (.vStr "https://x.com"), some (.vNum 1000000)⟩ = some true ∧
    validateProductData
      ⟨some (.vStr "Item"), some (.vStr "https://x.com"),
        some (.vNum (1000000 + 1 / 100))⟩ = some false := by
  refine ⟨?_, by decide, by decide⟩
  intro d
  obtain ⟨pn, w, pr⟩ := d
  constructor
  · intro h
    unfold validateProductData at h
    by_cases h1 : (fieldPresent pn && fieldPresent w && fieldPresent pr) = true
    · rw [if_pos h1] at h
      simp only [Bool.and_eq_true] at h1
      obtain ⟨⟨hpn, hw⟩, hpr⟩ := h1
      cases pr with
      | none => exact absurd hpr (by simp [fieldPresent])
      | some pv =>
        cases pv with
        | vStr s => simp [Option.getD] at h
        | vNone => simp [Option.getD] at h
        | vNum p =>
          simp only [Option.getD_some] at h
          by_cases h2 : (p ≤ 0 || 1000000 < p) = true
          · rw [if_pos h2] at h
            exact absurd h (by simp)
          · rw [if_neg h2] at h
            simp only [Bool.or_eq_true, decide_eq_true_eq, not_or] at h2
            cases w with
            | none => exact absurd hw (by simp [fieldPresent])
            | some wv =>
              cases wv with
              | vNum q => simp [Option.getD] at h
              | vNone => exact absurd hw (by simp [fieldPresent, truthy])
              | vStr ws =>
                simp only [Option.getD_some] at h
                by_cases h3 :
                    (pyStartswith ws "http://" || pyStartswith ws "https://") = true
                · simp only [Bool.or_eq_true] at h3
                  refine ⟨?_, ⟨ws, rfl, h3⟩, ⟨p, rfl, ?_, ?_⟩⟩
                  · cases pn with
                    | none => exact absurd hpn (by simp [fieldPresent])
                    | some v => exact ⟨v, rfl, by simpa [fieldPresent] using hpn⟩
                  · have := h2.1
                    exact lt_of_not_ge (by simpa using this)
                  · exact le_of_not_lt h2.2
                · rw [if_neg h3] at h
                  exact absurd h (by simp)
    · rw [if_neg h1] at h
      exact absurd h (by simp)
  · rintro ⟨⟨v, hv, htr⟩, ⟨ws, hws, hstart⟩, ⟨p, hp, hpos, hle⟩⟩
    subst hv
    subst hws
    subst hp
    unfold validateProductData
    have h1 : (fieldPresent (some v) && fieldPresent (some (.vStr ws)) &&
        fieldPresent (some (.vNum p))) = true := by
      simp only [fieldPresent, Bool.and_eq_true]
      refine ⟨⟨htr, ?_⟩, ?_⟩
      · simp [truthy, startsWith_http_ne_empty ws hstart]
      · simp [truthy]
        intro h0
        rw [h0] at hpos
        exact absurd hpos (by norm_num)
    rw [if_pos h1]
    simp only [Option.getD_some]
    have h2 : (p ≤ 0 || 1000000 < p) = false := by
      simp only [Bool.or_eq_false_iff, decide_eq_false_iff_not]
      exact ⟨not_le_of_gt hpos, not_lt_of_ge hle⟩
    rw [if_neg (by rw [h2]; exact Bool.false_ne_true)]
    rw [if_pos (by simp only [Bool.or_eq_true]; exact hstart)]

/-- Claim C7: `_calculate_statistics` is total: the empty batch yields
the empty dictionary (no numeric fields, no division), and on a nonempty
batch the fields satisfy `range = max - min`, with the standard deviation
equal to `0` (stored here as the variance `std_dev_sq = 0`, and the
code's `std_dev` is the square root of that value) whenever the batch has
fewer than 2 values. -/
theorem calculateStatistics_total :
    calculateStatistics [] = none ∧
    (∀ l : List ℚ, l ≠ [] →
      ∃ s, calculateStatistics l = some s ∧ s.range = s.max - s.min ∧
        (l.length < 2 → s.std_dev_sq = 0)) := by
  refine ⟨rfl, ?_⟩
  intro l hl
  match l with
  | [] => exact absurd rfl hl
  | p :: rest =>
    refine ⟨_, rfl, rfl, ?_⟩
    intro hlen
    show (if 1 < (p :: rest).length then _ else (0 : ℚ)) = 0
    rw [if_neg (by omega)]

/-- Witness for claim C7 on the one-element batch `[5]`. -/
theorem calculateStatistics_total_w :
    ∃ s, calculateStatistics [(5 : ℚ)] = some s ∧ s.range = s.max - s.min ∧
      ([(5 : ℚ)].length < 2 → s.std_dev_sq = 0) :=
  calculateStatistics_total.2 [(5 : ℚ)] (by decide)

/-- Claim C4, counterexample: `comprehensive_price_analysis` embeds
`datetime.now().isoformat()` (line 271) in its output, so two calls on
the same immutable batch made at different wall-clock instants return
different dictionaries — the output is not a function of the batch
alone. -/
theorem comprehensivePriceAnalysis_timestamp_counterexample :
    comprehensivePriceAnalysis "2024-01-01T00:00:00" [timestampProbe] ≠
      comprehensivePriceAnalysis "2024-01-01T00:00:01" [timestampProbe] := by
  decide

/-- Claim C4, amended: apart from the `analysis_timestamp` field, the
output of `comprehensive_price_analysis` is a deterministic pure function
of the batch: any two calls, whatever their wall-clock instants, agree on
every other field (statistics, best deal, trends, recommendations,
prices, flags). -/
theorem comprehensivePriceAnalysis_deterministic_amended :
    ∀ (t₁ t₂ : String) (dl : List DataItem),
      stripTimestamp (comprehensivePriceAnalysis t₁ dl) =
        stripTimestamp (comprehensivePriceAnalysis t₂ dl) := by
  intro t₁ t₂ dl
  unfold comprehensivePriceAnalysis
  split
  · rfl
  · dsimp only
    split <;> rfl

/-- The accumulating loop of `process_scraped_data` splits the input by
`processItem`: accepted items in order on the left, rejected items in
order on the right. -/
theorem processScrapedData_foldl_eq :
    ∀ (results : List RawItem) (acc : List ProcessedItem × List FailedItem),
      results.foldl
        (fun (acc : List ProcessedItem × List FailedItem) item =>
          match processItem item with
          | .inl p => (acc.1 ++ [p], acc.2)
          | .inr f => (acc.1, acc.2 ++ [f]))
        acc =
      (acc.1 ++ results.filterMap (fun i => (processItem i).getLeft?),
       acc.2 ++ results.filterMap (fun i => (processItem i).getRight?)) := by
  intro results
  induction results with
  | nil => intro acc; simp
  | cons i rest ih =>
    intro acc
    rw [List.foldl_cons, ih, List.filterMap_cons, List.filterMap_cons]
    cases hi : processItem i with
    | inl p => simp [hi, Sum.getLeft?, Sum.getRight?]
    | inr f => simp [hi, Sum.getLeft?, Sum.getRight?]

/-- The two projections of `processItem` are exhaustive and exclusive:
the lengths of the accepted and rejected sublists add up to the input
length. -/
theorem length_filterMap_left_right {α β γ : Type} (f : γ → α ⊕ β) :
    ∀ l : List γ, (l.filterMap (fun x => (f x).getLeft?)).length +
      (l.filterMap (fun x => (f x).getRight?)).length = l.length := by
  intro l
  induction l with
  | nil => rfl
  | cons x rest ih =>
    cases hx : f x with
    | inl a =>
      simp only [List.filterMap_cons, hx, Sum.getLeft?, Sum.getRight?,
        List.length_cons] at ih ⊢
      omega
    | inr b =>
      simp only [List.filterMap_cons, hx, Sum.getLeft?, Sum.getRight?,
        List.length_cons] at ih ⊢
      omega

/-- The two output lists of `process_scraped_data`, characterized as
order-preserving projections of the input. -/
theorem processScrapedData_lists_eq (results : List RawItem) :
    (processScrapedData results).data_list =
      results.filterMap (fun i => (processItem i).getLeft?) ∧
    (processScrapedData results).failed_items =
      results.filterMap (fun i => (processItem i).getRight?) := by
  have hfold := processScrapedData_foldl_eq results ([], [])
  constructor
  · unfold processScrapedData
    rw [hfold]
    simp
  · unfold processScrapedData
    rw [hfold]
    simp

/-- Claim C10: `process_scraped_data` partitions its input: every item of
`results` lands, in input order, in exactly one of `data_list`
(via the accepting branch of `processItem`) and `failed_items` (via a
rejecting branch); the two lengths add up to the input length, the
summary counts both lists, and `success_rate` is
`accepted / (accepted + rejected) * 100`, or `0` when both lists are
empty. -/
theorem processScrapedData_partition :
    ∀ results : List RawItem,
      (processScrapedData results).data_list =
        results.filterMap (fun i => (processItem i).getLeft?) ∧
      (processScrapedData results).failed_items =
        results.filterMap (fun i => (processItem i).getRight?) ∧
      (processScrapedData results).data_list.length +
          (processScrapedData results).failed_items.length = results.length ∧
      (processScrapedData results).summary.total_processed =
        (processScrapedData results).data_list.length ∧
      (processScrapedData results).summary.total_failed =
        (processScrapedData results).failed_items.length ∧
      (processScrapedData results).summary.success_rate =
        (if (processScrapedData results).data_list = [] ∧
            (processScrapedData results).failed_items = [] then 0
         else ((processScrapedData results).data_list.length : ℚ) /
            (((processScrapedData results).data_list.length : ℚ) +
              ((processScrapedData results).failed_items.length : ℚ)) * 100) := by
  intro results
  have hfold := processScrapedData_foldl_eq results ([], [])
  have hout : processScrapedData results =
      { data_list := results.filterMap (fun i => (processItem i).getLeft?)
        summary :=
          { total_processed :=
              (results.filterMap (fun i => (processItem i).getLeft?)).length
            total_failed :=
              (results.filterMap (fun i => (processItem i).getRight?)).length
            success_rate :=
              if results.filterMap (fun i => (processItem i).getLeft?) = [] &&
                  results.filterMap (fun i => (processItem i).getRight?) = [] then 0
              else ((results.filterMap (fun i => (processItem i).getLeft?)).length : ℚ) /
                (((results.filterMap (fun i => (processItem i).getLeft?)).length : ℚ) +
                  ((results.filterMap (fun i => (processItem i).getRight?)).length : ℚ)) *
                100 }
        failed_items := results.filterMap (fun i => (processItem i).getRight?) } := by
    unfold processScrapedData
    rw [hfold]
    simp
  rw [hout]
  refine ⟨rfl, rfl, length_filterMap_left_right processItem results, rfl, rfl, ?_⟩
  by_cases h1 : results.filterMap (fun i => (processItem i).getLeft?) = []
  · by_cases h2 : results.filterMap (fun i => (processItem i).getRight?) = []
    · simp [h1, h2]
    · simp [h1, h2]
  · simp [h1]

/-- The only branch of `processItem` that accepts a record is guarded by
the validator returning true (line 214 of the source). -/
theorem processItem_inl_valid (i : RawItem) (p : ProcessedItem)
    (h : processItem i = .inl p) :
    validateProductData (toProductData p) = some true := by
  unfold processItem at h
  by_cases hs : i.success = true
  · rw [if_pos hs] at h
    cases hx : extractPrice (some i.price) with
    | mk priceOpt currencyOpt =>
      rw [hx] at h
      cases priceOpt with
      | none => exact absurd h (by simp)
      | some q =>
        dsimp only at h
        by_cases hv : validateProductData (toProductData
            { product_name := i.product_name.getD (i.product.getD "Unknown Product")
              website := i.website
              domain := extractDomain i.website
              price := q
              currency := currencyOpt.getD "USD"
              original_price_string := i.price
              extracted_title := i.extracted_title }) = some true
        · rw [if_pos hv] at h
          injection h with h'
          rw [← h']
          exact hv
        · rw [if_neg hv] at h
          exact absurd h (by simp)
  · rw [if_neg hs] at h
    exact absurd h (by simp)

/-- Claim C2: every record that `process_scraped_data` places in
`data_list` passes `_validate_product_data`: the normalizer never emits
an accepted record that fails validation. -/
theorem processScrapedData_accepted_valid :
    ∀ (results : List RawItem) (p : ProcessedItem),
      p ∈ (processScrapedData results).data_list →
      validateProductData (toProductData p) = some true := by
  intro results p hp
  have hdl : (processScrapedData results).data_list =
      results.filterMap (fun i => (processItem i).getLeft?) :=
    (processScrapedData_lists_eq results).1
  rw [hdl] at hp
  obtain ⟨i, _, hpi⟩ := List.mem_filterMap.mp hp
  have : processItem i = .inl p := by
    cases hx : processItem i with
    | inl a => rw [hx] at hpi; injection hpi with h'; rw [h']
    | inr b => rw [hx] at hpi; exact absurd hpi (by simp [Sum.getRight?])
  exact processItem_inl_valid i p this

/-- Witness for claim C2 on a concrete one-item batch. -/
theorem processScrapedData_accepted_valid_w :
    validateProductData (toProductData sampleProcessedItem) = some true :=
  processScrapedData_accepted_valid [sampleRawItem] sampleProcessedItem (by decide)

/-- Assigning a fresh key appends the binding at the end of the
dictionary. -/
theorem dictInsert_fresh {α : Type} :
    ∀ (l : List (String × α)) (k : String) (v : α),
      k ∉ l.map Prod.fst → dictInsert l k v = l ++ [(k, v)] := by
  intro l
  induction l with
  | nil => intro k v _; rfl
  | cons e rest ih =>
    intro k v hk
    simp only [List.map_cons, List.mem_cons, not_or] at hk
    unfold dictInsert
    rw [if_neg (by intro h; exact hk.1 h.symm)]
    rw [ih k v hk.2]
    rfl

/-- A key that is bound nowhere looks up to nothing. -/
theorem lookupA_eq_none {α : Type} :
    ∀ (l : List (String × α)) (k : String),
      k ∉ l.map Prod.fst → lookupA l k = none := by
  intro l
  induction l with
  | nil => intro k _; rfl
  | cons e rest ih =>
    intro k hk
    simp only [List.map_cons, List.mem_cons, not_or] at hk
    unfold lookupA
    rw [if_neg (by intro h; exact hk.1 h.symm)]
    exact ih k hk.2

/-- Looking up a key after mapping the values of a dictionary. -/
theorem lookupA_map_pair {α β : Type} (h : String × α → β) :
    ∀ (l : List (String × α)) (k : String),
      lookupA (l.map (fun e => (e.1, h e))) k = (lookupA l k).map (fun v => h (k, v)) := by
  intro l
  induction l with
  | nil => intro k; rfl
  | cons e rest ih =>
    intro k
    obtain ⟨k1, v1⟩ := e
    by_cases hk : k1 = k
    · subst hk
      simp [lookupA]
    · simp only [List.map_cons, lookupA]
      rw [if_neg hk, if_neg hk]
      exact ih k

/-- Building a dictionary over pairwise-distinct keys by repeated
assignment yields the association list in iteration order. -/
theorem foldl_dictInsert_eq_map {α : Type} (f : String → α) :
    ∀ (doms : List String) (acc : List (String × α)),
      doms.Nodup → (∀ d ∈ doms, d ∉ acc.map Prod.fst) →
      doms.foldl (fun sd dom => dictInsert sd dom (f dom)) acc =
        acc ++ doms.map (fun d => (d, f d)) := by
  intro doms
  induction doms with
  | nil => intro acc _ _; simp
  | cons d rest ih =>
    intro acc hnd hfresh
    rw [List.foldl_cons]
    rw [dictInsert_fresh acc d (f d) (hfresh d (List.mem_cons_self d rest))]
    rw [ih (acc ++ [(d, f d)]) (List.Nodup.of_cons hnd) ?_]
    · simp
    · intro d' hd'
      simp only [List.map_append, List.mem_append, not_or]
      refine ⟨hfresh d' (List.mem_cons_of_mem d hd'), ?_⟩
      simp only [List.map_cons, List.map_nil, List.mem_singleton]
      intro he
      rw [he] at hd'
      exact (List.nodup_cons.mp hnd).1 hd'

/-- Keys of the per-domain selection dictionary come from the requested
list. -/
theorem mem_filterMap_key {α : Type} (f : String → Option DataItem)
    (g : String → DataItem → α) :
    ∀ (doms : List String) (x : String × α),
      x ∈ doms.filterMap (fun d => (f d).map (fun r => (d, g d r))) → x.1 ∈ doms := by
  intro doms
  induction doms with
  | nil => intro x hx; exact absurd hx (by simp)
  | cons d rest ih =>
    intro x hx
    rw [List.filterMap_cons] at hx
    cases hf : f d with
    | none =>
      rw [hf] at hx
      dsimp only [Option.map] at hx
      exact List.mem_cons_of_mem d (ih x hx)
    | some r =>
      rw [hf] at hx
      dsimp only [Option.map] at hx
      rcases List.mem_cons.mp hx with h | h
      · rw [h]
        exact List.mem_cons_self d rest
      · exact List.mem_cons_of_mem d (ih x h)

/-- Looking up one requested domain in the per-domain selection, when the
requested domains are pairwise distinct. -/
theorem lookupA_filterMap {α : Type} (f : String → Option DataItem)
    (g : String → DataItem → α) :
    ∀ (doms : List String), doms.Nodup → ∀ dom ∈ doms,
      lookupA (doms.filterMap (fun d => (f d).map (fun r => (d, g d r)))) dom =
        (f dom).map (g dom) := by
  intro doms
  induction doms with
  | nil => intro _ dom hdom; simp at hdom
  | cons d rest ih =>
    intro hnd dom hdom
    rw [List.filterMap_cons]
    rcases List.mem_cons.mp hdom with h | h
    · subst h
      cases hf : f dom with
      | none =>
        dsimp only [Option.map]
        have hnk : dom ∉ (rest.filterMap
            (fun d => (f d).map (fun r => (d, g d r)))).map Prod.fst := by
          intro hc
          obtain ⟨x, hx, hxk⟩ := List.mem_map.mp hc
          have := mem_filterMap_key f g rest x hx
          rw [hxk] at this
          exact (List.nodup_cons.mp hnd).1 this
        exact lookupA_eq_none _ dom hnk
      | some r =>
        dsimp only [Option.map]
        simp [lookupA]
    · cases hf : f d with
      | none =>
        dsimp only [Option.map]
        exact ih (List.Nodup.of_cons hnd) dom h
      | some r =>
        dsimp only [Option.map]
        unfold lookupA
        rw [if_neg (by
          intro he
          subst he
          exact (List.nodup_cons.mp hnd).1 h)]
        exact ih (List.Nodup.of_cons hnd) dom h

/-- Python's keyed `min`/`max` returns an element of the sequence. -/
theorem pyBest_mem {α : Type} (better : α → α → Bool) :
    ∀ (l : List α) (a : α), pyBest better a l ∈ a :: l := by
  intro l
  induction l with
  | nil => intro a; exact List.mem_cons_self a []
  | cons x xs ih =>
    intro a
    unfold pyBest
    by_cases hb : better x a = true
    · rw [if_pos hb]
      rcases List.mem_cons.mp (ih x) with h | h
      · rw [h]; exact List.mem_cons_of_mem a (List.mem_cons_self x xs)
      · exact List.mem_cons_of_mem a (List.mem_cons_of_mem x h)
    · rw [if_neg hb]
      rcases List.mem_cons.mp (ih a) with h | h
      · rw [h]; exact List.mem_cons_self a (x :: xs)
      · exact List.mem_cons_of_mem a (List.mem_cons_of_mem x h)

/-- `min(valid_sites, key=valid_sites.get)` selects an entry of minimal
value: scanning with a strict comparison keeps a minimal element. -/
theorem pyBest_snd_le :
    ∀ (vs : List (String × ℚ)) (v : String × ℚ),
      ∀ x ∈ v :: vs,
        (pyBest (fun a b : String × ℚ => decide (a.2 < b.2)) v vs).2 ≤ x.2 := by
  intro vs
  induction vs with
  | nil =>
    intro v x hx
    rcases List.mem_cons.mp hx with h | h
    · rw [h]
      exact le_refl v.2
    · simp at h
  | cons w ws ih =>
    intro v x hx
    unfold pyBest
    by_cases hb : (w.2 < v.2)
    · rw [if_pos (by simpa using hb)]
      rcases List.mem_cons.mp hx with h | h
      · rw [h]
        exact le_of_lt (lt_of_le_of_lt (ih w w (List.mem_cons_self w ws)) hb)
      · exact ih w x h
    · rw [if_neg (by simpa using hb)]
      rcases List.mem_cons.mp hx with h | h
      · rw [h]
        exact ih v v (List.mem_cons_self v ws)
      · rcases List.mem_cons.mp h with h' | h'
        · rw [h']
          exact le_trans (ih v v (List.mem_cons_self v ws)) (not_lt.mp hb)
        · exact ih v x (List.mem_cons_of_mem v h')

/-- Characterization of the loop over `site_data.items()` (lines 338-350)
when the keys are pairwise distinct: `site_prices` and `valid_sites`
collect the matched domains in order, `sites_found` counts them, and
`sites_missing` collects the unmatched domains in order. -/
theorem foldl_siteStep_eq :
    ∀ (L : List (String × Option DataItem))
      (acc : List (String × SitePriceEntry) × List (String × ℚ) × Nat × List String),
      (L.map Prod.fst).Nodup →
      (∀ k ∈ L.map Prod.fst, k ∉ acc.1.map Prod.fst ∧ k ∉ acc.2.1.map Prod.fst) →
      L.foldl siteStep acc =
        (acc.1 ++ L.filterMap (fun e => e.2.map (fun r => (e.1, mkSitePrice r))),
         acc.2.1 ++ L.filterMap (fun e => e.2.map (fun r => (e.1, r.price.getD 0))),
         acc.2.2.1 + L.countP (fun e => e.2.isSome),
         acc.2.2.2 ++ (L.filter (fun e => e.2.isNone)).map Prod.fst) := by
  intro L
  induction L with
  | nil => intro acc _ _; simp
  | cons e rest ih =>
    intro acc hnd hfresh
    obtain ⟨k, o⟩ := e
    rw [List.foldl_cons]
    cases o with
    | some r =>
      have hk := hfresh k (by simp)
      have hstep : siteStep acc (k, some r) =
          (acc.1 ++ [(k, mkSitePrice r)], acc.2.1 ++ [(k, r.price.getD 0)],
            acc.2.2.1 + 1, acc.2.2.2) := by
        unfold siteStep
        dsimp only
        rw [dictInsert_fresh acc.1 k _ hk.1, dictInsert_fresh acc.2.1 k _ hk.2]
      rw [hstep]
      rw [ih _ (by
          simp only [List.map_cons] at hnd
          exact List.Nodup.of_cons hnd) (by
        intro k' hk'
        have hne : k' ≠ k := by
          intro he
          simp only [List.map_cons] at hnd
          rw [he] at hk'
          exact (List.nodup_cons.mp hnd).1 hk'
        have hf := hfresh k' (by simp [hk'])
        constructor
        · simp only [List.map_append, List.mem_append, not_or]
          exact ⟨hf.1, by simp [hne]⟩
        · simp only [List.map_append, List.mem_append, not_or]
          exact ⟨hf.2, by simp [hne]⟩)]
      simp only [List.filterMap_cons, List.countP_cons, List.filter_cons]
      dsimp only [Option.map, Option.isSome, Option.isNone]
      simp [List.append_assoc]
      omega
    | none =>
      have hstep : siteStep acc (k, none) =
          (acc.1, acc.2.1, acc.2.2.1, acc.2.2.2 ++ [k]) := rfl
      rw [hstep]
      rw [ih _ (by
          simp only [List.map_cons] at hnd
          exact List.Nodup.of_cons hnd) (by
        intro k' hk'
        exact hfresh k' (by simp [hk']))]
      simp only [List.filterMap_cons, List.countP_cons, List.filter_cons]
      dsimp only [Option.map, Option.isSome, Option.isNone]
      simp [List.append_assoc]

/-- `min(matching_items, key=...get("price", inf))` picks a record of
minimal price when every record carries a price. -/
theorem pyBest_keyLt_min :
    ∀ (xs : List DataItem) (x : DataItem),
      (∀ y ∈ x :: xs, y.price.isSome = true) →
      ∀ y ∈ x :: xs,
        (pyBest (fun a b : DataItem => keyLt a.price b.price) x xs).price.getD 0 ≤
          y.price.getD 0 := by
  intro xs
  induction xs with
  | nil =>
    intro x _ y hy
    rcases List.mem_cons.mp hy with h | h
    · rw [h]
      exact le_refl _
    · simp at h
  | cons w ws ih =>
    intro x hall y hy
    obtain ⟨px, hpx⟩ := Option.isSome_iff_exists.mp (hall x (by simp))
    obtain ⟨pw, hpw⟩ := Option.isSome_iff_exists.mp (hall w (by simp))
    unfold pyBest
    by_cases hb : keyLt w.price x.price = true
    · rw [if_pos hb]
      have hlt : pw < px := by
        rw [hpw, hpx] at hb
        simpa [keyLt] using hb
      have hall' : ∀ z ∈ w :: ws, z.price.isSome = true := by
        intro z hz
        rcases List.mem_cons.mp hz with h | h
        · rw [h]; exact hall w (by simp)
        · exact hall z (by simp [h])
      rcases List.mem_cons.mp hy with h | h
      · rw [h]
        simp only [hpx, Option.getD_some]
        have h1 := ih w hall' w (by simp)
        simp only [hpw, Option.getD_some] at h1
        exact le_of_lt (lt_of_le_of_lt h1 hlt)
      · exact ih w hall' y h
    · rw [if_neg hb]
      have hge : px ≤ pw := by
        rw [hpw, hpx] at hb
        simp only [keyLt, decide_eq_true_eq] at hb
        exact le_of_not_lt (by simpa using hb)
      have hall' : ∀ z ∈ x :: ws, z.price.isSome = true := by
        intro z hz
        rcases List.mem_cons.mp hz with h | h
        · rw [h]; exact hall x (by simp)
        · exact hall z (by simp [h])
      rcases List.mem_cons.mp hy with h | h
      · rw [h]
        exact ih x hall' x (by simp)
      · rcases List.mem_cons.mp h with h' | h'
        · rw [h']
          simp only [hpw, Option.getD_some]
          have h1 := ih x hall' x (by simp)
          simp only [hpx, Option.getD_some] at h1
          exact le_trans h1 hge
        · exact ih x hall' y (by simp [h'])

/-- The record selected for a matched domain belongs to the matching
records and has minimal price among them. -/
theorem bestMatch_spec (dl : List DataItem) (dom : String) (r : DataItem)
    (hp : ∀ y ∈ dl, y.price.isSome = true)
    (h : bestMatch dl dom = some r) :
    r ∈ matchingItems dl dom ∧
      ∀ x ∈ matchingItems dl dom, r.price.getD 0 ≤ x.price.getD 0 := by
  unfold bestMatch at h
  cases hm : matchingItems dl dom with
  | nil => rw [hm] at h; exact absurd h (by simp)
  | cons x xs =>
    rw [hm] at h
    injection h with h'
    have hsub : ∀ y ∈ x :: xs, y.price.isSome = true := by
      intro y hy
      rw [← hm] at hy
      exact hp y (List.mem_of_mem_filter hy)
    constructor
    · rw [← h']
      exact pyBest_mem _ xs x
    · intro z hz
      rw [← h']
      exact pyBest_keyLt_min xs x hsub z hz

/-- Building the `price_differences` dictionary over the distinct-keyed
`valid_sites` items appends one binding per entry, in order. -/
theorem foldl_dictInsert_pairs {α β : Type} (g : String × β → α) :
    ∀ (L : List (String × β)) (acc : List (String × α)),
      (L.map Prod.fst).Nodup → (∀ k ∈ L.map Prod.fst, k ∉ acc.map Prod.fst) →
      L.foldl (fun acc e => dictInsert acc e.1 (g e)) acc =
        acc ++ L.map (fun e => (e.1, g e)) := by
  intro L
  induction L with
  | nil => intro acc _ _; simp
  | cons e rest ih =>
    intro acc hnd hfresh
    rw [List.foldl_cons]
    rw [dictInsert_fresh acc e.1 (g e) (hfresh e.1 (by simp))]
    rw [ih (acc ++ [(e.1, g e)]) (by
        simp only [List.map_cons] at hnd
        exact List.Nodup.of_cons hnd) (by
      intro k' hk'
      have hne : k' ≠ e.1 := by
        intro he
        simp only [List.map_cons] at hnd
        rw [he] at hk'
        exact (List.nodup_cons.mp hnd).1 hk'
      have hf := hfresh k' (by simp [hk'])
      simp only [List.map_append, List.mem_append, not_or]
      exact ⟨hf, by simp [hne]⟩)]
    simp

/-- The keys of the matched-domain selection are the requested domains
that matched, in order. -/
theorem keys_filterMap_eq {α : Type} (f : String → Option DataItem)
    (g : String → DataItem → α) :
    ∀ doms : List String,
      (doms.filterMap (fun d => (f d).map (fun r => (d, g d r)))).map Prod.fst =
        doms.filter (fun d => (f d).isSome) := by
  intro doms
  induction doms with
  | nil => rfl
  | cons d rest ih =>
    rw [List.filterMap_cons, List.filter_cons]
    cases hf : f d with
    | none =>
      show (rest.filterMap (fun d => (f d).map (fun r => (d, g d r)))).map Prod.fst =
        rest.filter (fun d => (f d).isSome)
      exact ih
    | some r =>
      show d :: (rest.filterMap (fun d => (f d).map (fun r => (d, g d r)))).map Prod.fst =
        d :: rest.filter (fun d => (f d).isSome)
      rw [ih]

/-- Collapsing the mapped pair list inside a `filterMap`. -/
theorem filterMap_pair_map {α : Type} (f : String → Option DataItem)
    (g : String → DataItem → α) (doms : List String) :
    (doms.map (fun d => (d, f d))).filterMap
        (fun e => e.2.map (fun r => (e.1, g e.1 r))) =
      doms.filterMap (fun d => (f d).map (fun r => (d, g d r))) := by
  rw [List.filterMap_map]
  rfl

/-- Collapsing the mapped pair list inside the missing-domain filter. -/
theorem filter_pair_map (f : String → Option DataItem) (doms : List String) :
    ((doms.map (fun d => (d, f d))).filter (fun e => e.2.isNone)).map Prod.fst =
      doms.filter (fun d => (f d).isNone) := by
  rw [List.filter_map, List.map_map]
  have h1 : (Prod.fst ∘ fun d : String => (d, f d)) = fun d => d := rfl
  have h2 : ((fun e : String × Option DataItem => e.2.isNone) ∘ fun d => (d, f d)) =
      fun d => (f d).isNone := rfl
  rw [h1, h2]
  simp

/-- Claim C8, counterexample: `compare_specific_sites` rounds
`percent_above_cheapest` to one decimal place (line 365), so for prices 3
and 4 it reports 33.3 rather than the exact `(4 - 3) / 3 * 100 = 100/3`
the claim states (and `absolute_difference` is likewise rounded to two
decimals). -/
theorem compareSpecificSites_percent_counterexample :
    lookupA (deltasOf (compareSpecificSites [probeA, probeB] ["aaa", "bbb"])) "bbb" =
      some ⟨1, mkRat 333 10⟩ ∧
    (mkRat 333 10 : ℚ) ≠ (4 - 3) / 3 * 100 := by
  refine ⟨by decide, by decide⟩

/-- Claim C8, amended: in `compare_specific_sites`, for every requested
domain (requested domains pairwise distinct, every record carrying a
nonnegative price): the records whose `domain` contains the request as a
case-insensitive substring are selected and only the one of minimum
price is kept; an unmatched request appears in `sites_missing` and gets
no `site_prices` entry; the best among the matched requests is one of
minimum price; and each matched request's delta entry holds
`round(price - min, 2)` and, unless the minimum is zero (in which case
`0`), `round((price - min) / min * 100, 1)` — the rounded forms of the
claim's exact formulas. -/
theorem compareSpecificSites_amended :
    ∀ (dl : List DataItem) (doms : List String),
      dl ≠ [] → doms.Nodup →
      (∀ r ∈ dl, r.price.isSome = true ∧ 0 ≤ r.price.getD 0) →
      ∃ c, compareSpecificSites dl doms = .ok c ∧
        (∀ dom ∈ doms, (bestMatch dl dom = none ↔ dom ∈ c.sites_missing)) ∧
        (∀ dom ∈ doms, lookupA c.site_prices dom = (bestMatch dl dom).map mkSitePrice) ∧
        (∀ dom ∈ doms, ∀ r, bestMatch dl dom = some r →
          r ∈ matchingItems dl dom ∧
          ∀ x ∈ matchingItems dl dom, r.price.getD 0 ≤ x.price.getD 0) ∧
        (∀ dom ∈ doms, ∀ r, bestMatch dl dom = some r →
          ∃ b, c.best_among_requested = some b ∧
            b.price ≤ r.price.getD 0 ∧
            (∃ dom' ∈ doms, ∃ r', bestMatch dl dom' = some r' ∧
              b.domain = dom' ∧ b.price = r'.price.getD 0) ∧
            lookupA c.price_differences dom = some
              ⟨pyRoundTo 2 (r.price.getD 0 - b.price),
               if b.price = 0 then 0
               else pyRoundTo 1 ((r.price.getD 0 - b.price) / b.price * 100)⟩) := by
  intro dl doms hne hnd hp
  cases dl with
  | nil => exact absurd rfl hne
  | cons h0 t0 =>
    have hprices : ∀ y ∈ h0 :: t0, y.price.isSome = true := fun y hy => (hp y hy).1
    have hsite := foldl_dictInsert_eq_map (fun d => bestMatch (h0 :: t0) d) doms []
      hnd (by simp)
    rw [List.nil_append] at hsite
    have hkeys : ((doms.map (fun d => (d, bestMatch (h0 :: t0) d))).map Prod.fst).Nodup := by
      rw [List.map_map]
      have hcompeq : (Prod.fst ∘ fun d : String => (d, bestMatch (h0 :: t0) d)) =
          fun d => d := rfl
      rw [hcompeq]
      simpa using hnd
    have hfold := foldl_siteStep_eq (doms.map (fun d => (d, bestMatch (h0 :: t0) d)))
      ([], [], 0, []) hkeys (by intro k _; exact ⟨by simp, by simp⟩)
    -- facts shared by both branches of the valid-sites match
    have hmissmem : ∀ dom ∈ doms,
        (bestMatch (h0 :: t0) dom = none ↔
          dom ∈ doms.filter (fun d => (bestMatch (h0 :: t0) d).isNone)) := by
      intro dom hdom
      constructor
      · intro hb
        rw [List.mem_filter]
        exact ⟨hdom, by rw [hb]; rfl⟩
      · intro hm
        have := (List.mem_filter.mp hm).2
        exact Option.isNone_iff_eq_none.mp this
    have hspl : ∀ dom ∈ doms,
        lookupA (doms.filterMap
            (fun d => (bestMatch (h0 :: t0) d).map (fun r => (d, mkSitePrice r)))) dom =
          (bestMatch (h0 :: t0) dom).map mkSitePrice := by
      intro dom hdom
      exact lookupA_filterMap (fun d => bestMatch (h0 :: t0) d)
        (fun _ r => mkSitePrice r) doms hnd dom hdom
    have hbm3 : ∀ dom ∈ doms, ∀ r, bestMatch (h0 :: t0) dom = some r →
        r ∈ matchingItems (h0 :: t0) dom ∧
        ∀ x ∈ matchingItems (h0 :: t0) dom, r.price.getD 0 ≤ x.price.getD 0 := by
      intro dom _ r hbm
      exact bestMatch_spec (h0 :: t0) dom r hprices hbm
    unfold compareSpecificSites
    dsimp only
    rw [hsite, hfold]
    dsimp only
    rw [List.nil_append, List.nil_append, List.nil_append]
    rw [filterMap_pair_map (fun d => bestMatch (h0 :: t0) d) (fun _ r => mkSitePrice r),
      filterMap_pair_map (fun d => bestMatch (h0 :: t0) d) (fun _ r => r.price.getD 0),
      filter_pair_map (fun d => bestMatch (h0 :: t0) d)]
    cases hVS : doms.filterMap
        (fun d => (bestMatch (h0 :: t0) d).map (fun r => (d, r.price.getD 0))) with
    | nil =>
      refine ⟨_, rfl, hmissmem, hspl, hbm3, ?_⟩
      intro dom hdom r hbm
      exfalso
      have hmem : (dom, r.price.getD 0) ∈ doms.filterMap
          (fun d => (bestMatch (h0 :: t0) d).map (fun r => (d, r.price.getD 0))) :=
        List.mem_filterMap.mpr ⟨dom, hdom, by rw [hbm]; rfl⟩
      rw [hVS] at hmem
      exact absurd hmem (by simp)
    | cons v vs =>
      dsimp only
      have hknd : (((v :: vs) : List (String × ℚ)).map Prod.fst).Nodup := by
        rw [← hVS, keys_filterMap_eq]
        exact List.Nodup.filter _ hnd
      rw [foldl_dictInsert_pairs _ (v :: vs) [] hknd (by simp)]
      rw [List.nil_append]
      refine ⟨_, rfl, hmissmem, hspl, hbm3, ?_⟩
      intro dom hdom r hbm
      -- the minimal entry among the valid sites
      have hbmem : pyBest (fun a b : String × ℚ => decide (a.2 < b.2)) v vs ∈ v :: vs :=
        pyBest_mem _ vs v
      rw [← hVS] at hbmem
      obtain ⟨dom', hdom', heq'⟩ := List.mem_filterMap.mp hbmem
      cases hbm' : bestMatch (h0 :: t0) dom' with
      | none => rw [hbm'] at heq'; exact absurd heq' (by simp)
      | some r' =>
        rw [hbm'] at heq'
        dsimp only [Option.map] at heq'
        injection heq' with heq'
        refine ⟨_, rfl, ?_, ?_, ?_⟩
        · -- minimality against this domain's entry
          have hmem : (dom, r.price.getD 0) ∈ doms.filterMap
              (fun d => (bestMatch (h0 :: t0) d).map (fun r => (d, r.price.getD 0))) :=
            List.mem_filterMap.mpr ⟨dom, hdom, by rw [hbm]; rfl⟩
          rw [hVS] at hmem
          exact pyBest_snd_le vs v (dom, r.price.getD 0) hmem
        · exact ⟨dom', hdom', r', hbm', by rw [← heq'], by rw [← heq']⟩
        · -- the price-differences entry
          have hlv : lookupA (v :: vs) dom = some (r.price.getD 0) := by
            rw [← hVS]
            rw [lookupA_filterMap (fun d => bestMatch (h0 :: t0) d)
              (fun _ r => r.price.getD 0) doms hnd dom hdom]
            rw [hbm]
            rfl
          rw [lookupA_map_pair _ (v :: vs) dom, hlv]
          dsimp only [Option.map]
          -- nonnegativity of the cheapest price turns the strict guard
          -- of line 365 into the claim's zero test
          have hr'mem : r' ∈ (h0 :: t0) := by
            have := (bestMatch_spec (h0 :: t0) dom' r' hprices hbm').1
            exact List.mem_of_mem_filter this
          have hq0 : 0 ≤ r'.price.getD 0 := (hp r' hr'mem).2
          have hprice2 : (pyBest (fun a b : String × ℚ => decide (a.2 < b.2)) v vs).2 =
              r'.price.getD 0 := by rw [← heq']
          rw [hprice2]
          by_cases hc0 : r'.price.getD 0 = 0
          · rw [if_neg (by rw [hc0]; exact lt_irrefl 0), if_pos hc0]
          · rw [if_pos (lt_of_le_of_ne hq0 (Ne.symm hc0)), if_neg hc0]

/-- Witness for the amended claim C8 on a concrete two-record batch and
two requested domains. -/
theorem compareSpecificSites_amended_w :
    ∃ c, compareSpecificSites [probeA, probeB] ["aaa", "bbb"] = .ok c ∧
      (∀ dom ∈ ["aaa", "bbb"],
        (bestMatch [probeA, probeB] dom = none ↔ dom ∈ c.sites_missing)) ∧
      (∀ dom ∈ ["aaa", "bbb"],
        lookupA c.site_prices dom = (bestMatch [probeA, probeB] dom).map mkSitePrice) ∧
      (∀ dom ∈ ["aaa", "bbb"], ∀ r, bestMatch [probeA, probeB] dom = some r →
        r ∈ matchingItems [probeA, probeB] dom ∧
        ∀ x ∈ matchingItems [probeA, probeB] dom, r.price.getD 0 ≤ x.price.getD 0) ∧
      (∀ dom ∈ ["aaa", "bbb"], ∀ r, bestMatch [probeA, probeB] dom = some r →
        ∃ b, c.best_among_requested = some b ∧
          b.price ≤ r.price.getD 0 ∧
          (∃ dom' ∈ ["aaa", "bbb"], ∃ r', bestMatch [probeA, probeB] dom' = some r' ∧
            b.domain = dom' ∧ b.price = r'.price.getD 0) ∧
          lookupA c.price_differences dom = some
            ⟨pyRoundTo 2 (r.price.getD 0 - b.price),
             if b.price = 0 then 0
             else pyRoundTo 1 ((r.price.getD 0 - b.price) / b.price * 100)⟩) :=
  compareSpecificSites_amended [probeA, probeB] ["aaa", "bbb"]
    (by decide) (by decide) (by decide)

/-- A decimal digit is neither a comma nor a period. -/
theorem isDigit_ne_comma_dot {c : Char} (h : c.isDigit = true) :
    c ≠ ',' ∧ c ≠ '.' := by
  constructor
  · intro he
    rw [he] at h
    exact absurd h (by decide)
  · intro he
    rw [he] at h
    exact absurd h (by decide)

/-- `breakDot` leaves a dot-free list whole. -/
theorem breakDot_no_dot :
    ∀ l : List Char, ('.' ∉ l) → breakDot l = (l, none) := by
  intro l
  induction l with
  | nil => intro _; rfl
  | cons c rest ih =>
    intro h
    have hc : c ≠ '.' := fun he => h (he ▸ List.mem_cons_self c rest)
    have hr : ('.' : Char) ∉ rest := fun hm => h (List.mem_cons_of_mem c hm)
    unfold breakDot
    rw [if_neg hc, ih hr]

/-- `breakDot` splits at the first dot. -/
theorem breakDot_append_dot :
    ∀ (l r : List Char), ('.' ∉ l) → breakDot (l ++ '.' :: r) = (l, some r) := by
  intro l
  induction l with
  | nil =>
    intro r _
    unfold breakDot
    rw [List.nil_append]
    simp
  | cons c rest ih =>
    intro r h
    have hc : c ≠ '.' := fun he => h (he ▸ List.mem_cons_self c rest)
    have hr : ('.' : Char) ∉ rest := fun hm => h (List.mem_cons_of_mem c hm)
    rw [List.cons_append]
    unfold breakDot
    rw [if_neg hc, ih r hr]

/-- `float()` succeeds on a nonempty all-digit token. -/
theorem pyFloat_digits (ds : List Char) (hne : ds ≠ [])
    (hd : ∀ c ∈ ds, c.isDigit = true) : (pyFloat ds).isSome = true := by
  have hnd : ('.' : Char) ∉ ds := by
    intro hm
    exact absurd (hd '.' hm) (by decide)
  unfold pyFloat
  rw [breakDot_no_dot ds hnd]
  dsimp only
  rw [if_pos (by
    simp only [Bool.and_eq_true, decide_eq_true_eq]
    exact ⟨hne, List.all_eq_true.mpr (fun c hc => hd c hc)⟩)]
  rfl

/-- `float()` succeeds on a token of the shape `digits.digits` with a
nonempty integer part. -/
theorem pyFloat_digits_dot (ds fs : List Char) (hne : ds ≠ [])
    (hd : ∀ c ∈ ds, c.isDigit = true) (hf : ∀ c ∈ fs, c.isDigit = true) :
    (pyFloat (ds ++ '.' :: fs)).isSome = true := by
  have hnd : ('.' : Char) ∉ ds := by
    intro hm
    exact absurd (hd '.' hm) (by decide)
  have hnf : ('.' : Char) ∉ fs := by
    intro hm
    exact absurd (hf '.' hm) (by decide)
  unfold pyFloat
  rw [breakDot_append_dot ds fs hnd]
  dsimp only
  rw [breakDot_no_dot fs hnf]
  dsimp only
  rw [if_pos (by
    simp only [Bool.and_eq_true, Bool.or_eq_true, decide_eq_true_eq]
    exact ⟨⟨Or.inl hne, List.all_eq_true.mpr (fun c hc => hd c hc)⟩,
      List.all_eq_true.mpr (fun c hc => hf c hc)⟩)]
  rfl


/-- Characters consumed by the `(?:,\d{3})*` parser are commas or
digits. -/
theorem parseGroups_shape :
    ∀ l : List Char, ∀ x ∈ (parseGroups l).1, x = ',' ∨ x.isDigit = true := by
  intro l
  induction l using parseGroups.induct with
  | case1 c0 a b c rest hcond ih =>
    intro x hx
    rw [parseGroups.eq_def] at hx
    dsimp only at hx
    rw [if_pos hcond] at hx
    simp only [Bool.and_eq_true, decide_eq_true_eq] at hcond
    rcases List.mem_cons.mp hx with h | hx
    · exact Or.inl (h.trans hcond.1.1.1)
    rcases List.mem_cons.mp hx with h | hx
    · exact Or.inr (h ▸ hcond.1.1.2)
    rcases List.mem_cons.mp hx with h | hx
    · exact Or.inr (h ▸ hcond.1.2)
    rcases List.mem_cons.mp hx with h | hx
    · exact Or.inr (h ▸ hcond.2)
    · exact ih x hx
  | case2 c0 a b c rest hcond =>
    intro x hx
    rw [parseGroups.eq_def] at hx
    dsimp only at hx
    rw [if_neg hcond] at hx
    exact absurd hx (by simp)
  | case3 s hs =>
    intro x hx
    rw [parseGroups.eq_def] at hx
    split at hx
    · exact absurd rfl (hs _ _ _ _ ‹_›)
    · exact absurd hx (by simp)

/-- A nonempty all-digit token is parsed by the thousands-separator
branch of lines 109-111 (no comma to strip). -/
theorem interpToken_all_digits (t : List Char) (hne : t ≠ [])
    (hd : ∀ c ∈ t, c.isDigit = true) : (interpToken t).isSome = true := by
  have hnc : (',' : Char) ∉ t := fun hm => absurd (hd ',' hm) (by decide)
  unfold interpToken
  rw [if_neg (by simp [hnc])]
  rw [List.filter_eq_self.mpr (fun c hc => by
    simp only [decide_eq_true_eq]
    exact (isDigit_ne_comma_dot (hd c hc)).1)]
  exact pyFloat_digits t hne hd

/-- A token `u.ab` whose head `u` mixes digits and commas (with at least
one digit) and whose fraction is two digits is parsed by the
strip-commas branch of lines 109-111. -/
theorem interpToken_dot (u : List Char) (a b : Char)
    (hu : ∀ c ∈ u, c = ',' ∨ c.isDigit = true)
    (hufirst : ∃ c ∈ u, c.isDigit = true)
    (ha : a.isDigit = true) (hb : b.isDigit = true) :
    (interpToken (u ++ ['.', a, b])).isSome = true := by
  have hdot : ('.' : Char) ∈ u ++ ['.', a, b] := by simp
  unfold interpToken
  rw [if_neg (by simp [hdot])]
  rw [List.filter_append]
  have hfa : (['.', a, b].filter (fun c => c ≠ ',')) = ['.', a, b] :=
    List.filter_eq_self.mpr (fun c hc => by
      simp only [decide_eq_true_eq]
      rcases List.mem_cons.mp hc with h | hc
      · rw [h]; decide
      rcases List.mem_cons.mp hc with h | hc
      · rw [h]; exact (isDigit_ne_comma_dot ha).1
      rcases List.mem_cons.mp hc with h | hc
      · rw [h]; exact (isDigit_ne_comma_dot hb).1
      · exact absurd hc (by simp)
    )
  rw [hfa]
  have hfu : ∀ c ∈ u.filter (fun c => c ≠ ','), c.isDigit = true := by
    intro c hc
    have hm := List.mem_of_mem_filter hc
    have hp := List.of_mem_filter hc
    simp only [decide_eq_true_eq] at hp
    rcases hu c hm with h | h
    · exact absurd h hp
    · exact h
  have hfne : u.filter (fun c => c ≠ ',') ≠ [] := by
    obtain ⟨c0, hc0, hc0d⟩ := hufirst
    have hmem : c0 ∈ u.filter (fun c => c ≠ ',') := by
      rw [List.mem_filter]
      refine ⟨hc0, ?_⟩
      simp only [decide_eq_true_eq]
      exact (isDigit_ne_comma_dot hc0d).1
    exact List.ne_nil_of_mem hmem
  exact pyFloat_digits_dot _ [a, b] hfne hfu (fun c hc => by
    rcases List.mem_cons.mp hc with h | hc
    · rw [h]; exact ha
    rcases List.mem_cons.mp hc with h | hc
    · rw [h]; exact hb
    · exact absurd hc (by simp))

/-- A token `u,ab` with all-digit `u` is parsed by the European branch of
lines 106-108: the comma is replaced by a period and the result parses. -/
theorem interpToken_comma (run : List Char) (a b : Char)
    (hne : run ≠ []) (hr : ∀ c ∈ run, c.isDigit = true)
    (ha : a.isDigit = true) (hb : b.isDigit = true) :
    (interpToken (run ++ [',', a, b])).isSome = true := by
  have hcm : (',' : Char) ∈ run ++ [',', a, b] := by simp
  have hnd : ('.' : Char) ∉ run ++ [',', a, b] := by
    intro hm
    rcases List.mem_append.mp hm with h | h
    · exact absurd (hr '.' h) (by decide)
    · rcases List.mem_cons.mp h with h' | h
      · exact absurd h' (by decide)
      rcases List.mem_cons.mp h with h' | h
      · exact absurd (h' ▸ ha) (by decide)
      rcases List.mem_cons.mp h with h' | h
      · exact absurd (h' ▸ hb) (by decide)
      · exact absurd h (by simp)
  unfold interpToken
  rw [if_pos (by simp [hcm, hnd])]
  rw [List.map_append]
  have h1 : run.map (fun c => if c = ',' then '.' else c) = run := by
    rw [List.map_congr_left (fun c hc => by
      rw [if_neg (isDigit_ne_comma_dot (hr c hc)).1])]
    exact List.map_id run
  have h2 : [',', a, b].map (fun c => if c = ',' then '.' else c) = ['.', a, b] := by
    simp [(isDigit_ne_comma_dot ha).1, (isDigit_ne_comma_dot hb).1]
  rw [h1, h2]
  exact pyFloat_digits_dot run [a, b] hne hr (fun c hc => by
    rcases List.mem_cons.mp hc with h | hc
    · rw [h]; exact ha
    rcases List.mem_cons.mp hc with h | hc
    · rw [h]; exact hb
    · exact absurd hc (by simp))

/-- A list whose `isEmpty` test fails is nonempty. -/
theorem ne_nil_of_isEmpty_false {l : List Char} (h : l.isEmpty ≠ true) : l ≠ [] := by
  intro he
  rw [he] at h
  exact h rfl

/-- Tokens of pattern (e) always parse. -/
theorem matchE_parseable :
    ∀ s t, matchE s = some t → (interpToken t).isSome = true := by
  intro s t h
  unfold matchE at h
  by_cases he : (s.takeWhile Char.isDigit).isEmpty = true
  · rw [if_pos he] at h
    exact absurd h (by simp)
  · rw [if_neg he] at h
    injection h with h'
    rw [← h']
    exact interpToken_all_digits _ (ne_nil_of_isEmpty_false he)
      (fun c hc => List.mem_takeWhile_imp hc)

/-- Tokens of pattern (b) always parse. -/
theorem matchB_parseable :
    ∀ s t, matchB s = some t → (interpToken t).isSome = true := by
  intro s t h
  unfold matchB at h
  by_cases he : (s.takeWhile Char.isDigit).isEmpty = true
  · rw [if_pos he] at h
    exact absurd h (by simp)
  · rw [if_neg he] at h
    split at h
    · next d a b tail heq =>
      by_cases hc : (d = '.' && a.isDigit && b.isDigit) = true
      · rw [if_pos hc] at h
        injection h with h'
        simp only [Bool.and_eq_true, decide_eq_true_eq] at hc
        rw [← h', hc.1.1]
        exact interpToken_dot (s.takeWhile Char.isDigit) a b
          (fun c hc' => Or.inr (List.mem_takeWhile_imp hc'))
          (by
            obtain ⟨c0, hc0⟩ :=
              List.exists_mem_of_ne_nil _ (ne_nil_of_isEmpty_false he)
            exact ⟨c0, hc0, List.mem_takeWhile_imp hc0⟩)
          hc.1.2 hc.2
      · rw [if_neg hc] at h
        exact absurd h (by simp)
    · exact absurd h (by simp)

/-- Tokens of pattern (c) always parse. -/
theorem matchC_parseable :
    ∀ s t, matchC s = some t → (interpToken t).isSome = true := by
  intro s t h
  unfold matchC at h
  by_cases he : (s.takeWhile Char.isDigit).isEmpty = true
  · rw [if_pos he] at h
    exact absurd h (by simp)
  · rw [if_neg he] at h
    split at h
    · next d a b tail heq =>
      by_cases hc : (d = ',' && a.isDigit && b.isDigit) = true
      · rw [if_pos hc] at h
        injection h with h'
        simp only [Bool.and_eq_true, decide_eq_true_eq] at hc
        rw [← h', hc.1.1]
        exact interpToken_comma (s.takeWhile Char.isDigit) a b
          (ne_nil_of_isEmpty_false he)
          (fun c hc' => List.mem_takeWhile_imp hc')
          hc.1.2 hc.2
      · rw [if_neg hc] at h
        exact absurd h (by simp)
    · exact absurd h (by simp)

/-- Tokens of pattern (a) always parse: one backtracking attempt. -/
theorem attemptA_parseable :
    ∀ k s t, k ≠ 0 → attemptA k s = some t → (interpToken t).isSome = true := by
  intro k s t hk h
  unfold attemptA at h
  by_cases hcnd : ((s.take k).length = k && (s.take k).all Char.isDigit) = true
  · rw [if_pos hcnd] at h
    split at h
    · next d a b tail heq =>
      by_cases hc : (d = '.' && a.isDigit && b.isDigit) = true
      · rw [if_pos hc] at h
        injection h with h'
        simp only [Bool.and_eq_true, decide_eq_true_eq] at hc hcnd
        rw [← h', hc.1.1]
        have hds : ∀ c ∈ s.take k, c.isDigit = true :=
          fun c hcm => List.all_eq_true.mp hcnd.2 c hcm
        have hdne : s.take k ≠ [] := by
          intro hnil
          rw [hnil] at hcnd
          exact hk hcnd.1.symm
        exact interpToken_dot (s.take k ++ (parseGroups (s.drop k)).1) a b
          (fun c hcm => by
            rcases List.mem_append.mp hcm with hm | hm
            · exact Or.inr (hds c hm)
            · exact parseGroups_shape _ c hm)
          (by
            obtain ⟨c0, hc0⟩ := List.exists_mem_of_ne_nil _ hdne
            exact ⟨c0, List.mem_append_left _ hc0, hds c0 hc0⟩)
          hc.1.2 hc.2
      · rw [if_neg hc] at h
        exact absurd h (by simp)
    · exact absurd h (by simp)
  · rw [if_neg hcnd] at h
    exact absurd h (by simp)

/-- Tokens of pattern (a) always parse: the `{1,3}` backtracking loop. -/
theorem tryKA_parseable :
    ∀ k s t, tryKA k s = some t → (interpToken t).isSome = true := by
  intro k
  induction k with
  | zero => intro s t h; exact absurd h (by simp [tryKA])
  | succ k ih =>
    intro s t h
    unfold tryKA at h
    cases ha : attemptA (k + 1) s with
    | some t0 =>
      rw [ha] at h
      injection h with h'
      rw [← h']
      exact attemptA_parseable (k + 1) s t0 (Nat.succ_ne_zero k) ha
    | none =>
      rw [ha] at h
      exact ih s t h

/-- Tokens of pattern (a) always parse. -/
theorem matchA_parseable :
    ∀ s t, matchA s = some t → (interpToken t).isSome = true :=
  fun s t h => tryKA_parseable 3 s t h

/-- A nonempty first group forces the input to start with `,dd d`. -/
theorem parseGroups_fst_cons :
    ∀ (l : List Char) (g0 : Char) (g : List Char),
      (parseGroups l).1 = g0 :: g →
      ∃ a b c rest, l = ',' :: a :: b :: c :: rest ∧
        a.isDigit = true ∧ b.isDigit = true := by
  intro l g0 g h
  rw [parseGroups.eq_def] at h
  split at h
  · next c0 a b c rest =>
    by_cases hc : (c0 = ',' && a.isDigit && b.isDigit && c.isDigit) = true
    · rw [if_pos hc] at h
      simp only [Bool.and_eq_true, decide_eq_true_eq] at hc
      exact ⟨a, b, c, rest, by rw [hc.1.1.1], hc.1.1.2, hc.1.2⟩
    · rw [if_neg hc] at h
      exact absurd h (by simp)
  · next =>
    exact absurd h (by simp)

/-- Whenever pattern (d) matches at a position, pattern (c) matches at
the same position: the first one to three digits, the comma and the
first two group digits also form a `\d+,\d{2}` match.  Hence pattern (d)
is shadowed by pattern (c) in the ordered pattern list. -/
theorem matchD_imp_matchC :
    ∀ s t, matchD s = some t → ∃ t', matchC s = some t' := by
  intro s t h
  unfold matchD at h
  by_cases hem : ((s.takeWhile Char.isDigit).isEmpty ||
      decide (3 < (s.takeWhile Char.isDigit).length)) = true
  · rw [if_pos hem] at h
    exact absurd h (by simp)
  · rw [if_neg hem] at h
    cases hg : (parseGroups (s.dropWhile Char.isDigit)).1 with
    | nil =>
      rw [hg] at h
      exact absurd h (by simp)
    | cons g0 g =>
      rw [hg] at h
      obtain ⟨a, b, c, rest, hdw, ha, hb⟩ :=
        parseGroups_fst_cons (s.dropWhile Char.isDigit) g0 g hg
      refine ⟨s.takeWhile Char.isDigit ++ [',', a, b], ?_⟩
      unfold matchC
      have hie : (s.takeWhile Char.isDigit).isEmpty ≠ true := by
        intro hh
        exact hem (by rw [hh]; rfl)
      rw [if_neg hie, hdw]
      dsimp only
      rw [if_pos (by simp [ha, hb])]

/-- A pattern that fails at every position also fails as a leftmost
search, provided it is implied positionwise by the failing pattern. -/
theorem firstMatch_none_mono {m md : List Char → Option (List Char)}
    (himp : ∀ u t, md u = some t → ∃ t', m u = some t') :
    ∀ cl, firstMatch m cl = none → firstMatch md cl = none := by
  intro cl
  induction cl with
  | nil => intro _; rfl
  | cons c rest ih =>
    intro h
    unfold firstMatch at h ⊢
    cases hm : m (c :: rest) with
    | some t =>
      rw [hm] at h
      exact absurd h (by simp)
    | none =>
      rw [hm] at h
      cases hmd : md (c :: rest) with
      | some t' =>
        obtain ⟨t'', h''⟩ := himp _ _ hmd
        rw [h''] at hm
        exact absurd hm (by simp)
      | none => exact ih h

/-- Positionwise parseability lifts to the leftmost match. -/
theorem firstMatch_parseable {m : List Char → Option (List Char)}
    (hm : ∀ u t, m u = some t → (interpToken t).isSome = true) :
    ∀ cl t, firstMatch m cl = some t → (interpToken t).isSome = true := by
  intro cl
  induction cl with
  | nil => intro t h; exact absurd h (by simp [firstMatch])
  | cons c rest ih =>
    intro t h
    unfold firstMatch at h
    cases hmc : m (c :: rest) with
    | some t0 =>
      rw [hmc] at h
      injection h with h'
      rw [← h']
      exact hm _ _ hmc
    | none =>
      rw [hmc] at h
      exact ih t h

/-- The pattern loop of `_extract_price` agrees with the specification
reading "first pattern that matches at least once, first match of that
pattern": the `ValueError` fall-through of line 115 never skips the
first matching pattern, because tokens of patterns (a), (b), (c) and (e)
always parse and pattern (d) is shadowed by pattern (c). -/
theorem extractLoop_eq_firstPatternMatch :
    ∀ (cl t : List Char),
      firstPatternMatch pricePatterns cl = some t →
      ∃ q, interpToken t = some q ∧ extractLoop pricePatterns cl = some q := by
  intro cl t h
  simp only [pricePatterns, firstPatternMatch] at h
  simp only [pricePatterns, extractLoop]
  cases hA : firstMatch matchA cl with
  | some tA =>
    simp only [hA, Option.some.injEq] at h
    subst h
    obtain ⟨q, hq⟩ := Option.isSome_iff_exists.mp
      (firstMatch_parseable matchA_parseable cl tA hA)
    refine ⟨q, hq, ?_⟩
    simp only [hA, hq]
  | none =>
    simp only [hA] at h
    simp only [hA]
    cases hB : firstMatch matchB cl with
    | some tB =>
      simp only [hB, Option.some.injEq] at h
      subst h
      obtain ⟨q, hq⟩ := Option.isSome_iff_exists.mp
        (firstMatch_parseable matchB_parseable cl tB hB)
      refine ⟨q, hq, ?_⟩
      simp only [hB, hq]
    | none =>
      simp only [hB] at h
      simp only [hB]
      cases hC : firstMatch matchC cl with
      | some tC =>
        simp only [hC, Option.some.injEq] at h
        subst h
        obtain ⟨q, hq⟩ := Option.isSome_iff_exists.mp
          (firstMatch_parseable matchC_parseable cl tC hC)
        refine ⟨q, hq, ?_⟩
        simp only [hC, hq]
      | none =>
        simp only [hC] at h
        simp only [hC]
        have hD : firstMatch matchD cl = none :=
          firstMatch_none_mono matchD_imp_matchC cl hC
        simp only [hD] at h
        simp only [hD]
        cases hE : firstMatch matchE cl with
        | some tE =>
          simp only [hE, Option.some.injEq] at h
          subst h
          obtain ⟨q, hq⟩ := Option.isSome_iff_exists.mp
            (firstMatch_parseable matchE_parseable cl tE hE)
          refine ⟨q, hq, ?_⟩
          simp only [hE, hq]
        | none =>
          simp only [hE] at h
          exact absurd h (by simp)

/-- Claim C1: the four concrete extractions of §8, and the general
first-pattern/first-match contract: whenever some ordered pattern
matches the cleaned text, `_extract_price` returns exactly the canonical
decimal interpretation (comma/period rule of lines 105-111) of the first
match of the first matching pattern, together with the detected
currency. -/
theorem extractPrice_first_pattern_canonical :
    extractPrice (some "$1,234.56") = (some (mkRat 123456 100), some "USD") ∧
    extractPrice (some "Price: $979.00") = (some 979, some "USD") ∧
    extractPrice (some "Buy It Now: $899.99") = (some (mkRat 89999 100), some "USD") ∧
    extractPrice (some "123,45") = (some (mkRat 12345 100), some "USD") ∧
    ∀ (s : String) (t : List Char), s ≠ "" →
      firstPatternMatch pricePatterns (cleanedOf s) = some t →
      ∃ q, interpToken t = some q ∧
        extractPrice (some s) = (some q, some (detectCurrency (nfkd s.data))) := by
  refine ⟨by decide, by decide, by decide, by decide, ?_⟩
  intro s t hs hfp
  obtain ⟨q, hq, hloop⟩ := extractLoop_eq_firstPatternMatch (cleanedOf s) t hfp
  refine ⟨q, hq, ?_⟩
  unfold extractPrice
  dsimp only
  rw [if_neg hs, hloop]

/-- Witness for claim C1 at the concrete input `$1,234.56`, whose first
matching pattern is (a) with first match `1,234.56`. -/
theorem extractPrice_first_pattern_canonical_w :
    ∃ q, interpToken ['1', ',', '2', '3', '4', '.', '5', '6'] = some q ∧
      extractPrice (some "$1,234.56") =
        (some q, some (detectCurrency (nfkd "$1,234.56".data))) :=
  extractPrice_first_pattern_canonical.2.2.2.2 "$1,234.56"
    ['1', ',', '2', '3', '4', '.', '5', '6'] (by decide) (by decide)
